import Mathlib

/-
Verification of the classification-and-reconciliation engine of the
portfolioplanner backend: leg normalization (schwab_service.py,
transform_option_position / transform_equity_position), strategy detection
(schwab_service.py, group_positions_by_strategy), position signatures
(position_signature.py, generate_position_signature / signatures_match)
and sync reconciliation (position_service.py, sync_schwab_positions).

Modelling conventions:
- Python floats and Decimals are modelled as rationals (ℚ).  Python's
  abs(...) is the definable ratAbs below.
- Python dicts for legs become structures; a dict key that is always
  present but possibly None becomes an Option field.
- Python list.remove removes the first element equal to the argument,
  exactly List.erase; `x in l` is List.contains; next(...)/first-match
  loops are List.find?; dict insertion order is modelled by
  first-occurrence key lists (dedupFirstAux) with cells obtained by
  filtering, and the last-wins overwrite of a dict comprehension is
  modelled by upsert.
- The cryptographic digest (hashlib.sha256 hexdigest in the source; the
  spec says only "a cryptographic digest function") is abstracted as a
  parameter d of the signature generator; statements that a signature
  does not change hold for every d, statements that it does change hold
  for every injective d, mirroring the spec's own caveat that collision
  freedom is not guaranteed.
-/

/-- Python's abs on a rational. -/
def ratAbs (q : ℚ) : ℚ := if q < 0 then -q else q

/-- First-occurrence deduplication with an accumulator of already seen
keys; models the key order of a Python dict built by repeated
insertion. -/
def dedupFirstAux {α : Type} [DecidableEq α] (seen : List α) : List α → List α
  | [] => []
  | x :: t => if x ∈ seen then dedupFirstAux seen t else x :: dedupFirstAux (x :: seen) t

/-- Keys of a Python dict built by grouping, in first-occurrence order. -/
def dedupFirst {α : Type} [DecidableEq α] (l : List α) : List α := dedupFirstAux [] l

/-- Join a list of character lists with a separator character, as
Python's sep.join. -/
def joinSep (sep : Char) : List (List Char) → List Char
  | [] => []
  | [p] => p
  | p :: ps => p ++ sep :: joinSep sep ps

/-- A normalized position leg: the dictionary produced by
transform_option_position / transform_equity_position in
schwab_service.py and consumed by group_positions_by_strategy and
sync_schwab_positions. -/
structure Leg where
  symbol : String
  underlying : String
  asset_type : String
  option_type : Option String
  strike : Option ℚ
  expiration : Option String
  quantity : ℚ
  average_price : ℚ
  current_price : ℚ
  cost_basis : ℚ
  current_value : ℚ
  unrealized_pnl : ℚ
  maintenance_requirement : Option ℚ
  current_day_pnl : Option ℚ
  current_day_pnl_percentage : Option ℚ
  account_hash : String
  account_number : Option String
  account_type : Option String
deriving DecidableEq, Repr

/-- A raw Schwab position record: the numeric fields read by the two
transform functions in schwab_service.py. -/
structure SchwabRawPosition where
  longQuantity : ℚ
  shortQuantity : ℚ
  averagePrice : ℚ
  marketValue : ℚ
  maintenanceRequirement : Option ℚ
  currentDayProfitLoss : Option ℚ
  currentDayProfitLossPercentage : Option ℚ
deriving DecidableEq, Repr

/-- Python's `float(x) if x else None` applied to an optional number:
None and 0 both map to None. -/
def truthyOpt (m : Option ℚ) : Option ℚ :=
  match m with
  | none => none
  | some v => if v = 0 then none else some v

/-- transform_option_position (schwab_service.py lines 220-310).  The
OCC symbol parsing is not modelled; symbol, underlying, option type,
strike and expiration enter as already extracted values.  quantity is
longQuantity - shortQuantity; cost_basis is signed with contract
multiplier 100. -/
def transform_option_position (r : SchwabRawPosition) (symbol underlying put_call : String)
    (strike : Option ℚ) (expiration : Option String)
    (account_hash : String) (account_number account_type : Option String) : Leg :=
  let quantity : ℚ := r.longQuantity - r.shortQuantity
  let cost_basis : ℚ :=
    if quantity < 0 then -(ratAbs quantity * r.averagePrice * 100)
    else ratAbs quantity * r.averagePrice * 100
  { symbol := symbol
    underlying := underlying
    asset_type := "option"
    option_type := some put_call
    strike := strike
    expiration := expiration
    quantity := quantity
    average_price := r.averagePrice
    current_price := if quantity ≠ 0 then ratAbs (r.marketValue / quantity / 100) else 0
    cost_basis := cost_basis
    current_value := r.marketValue
    unrealized_pnl := r.marketValue - cost_basis
    maintenance_requirement := truthyOpt r.maintenanceRequirement
    current_day_pnl := truthyOpt r.currentDayProfitLoss
    current_day_pnl_percentage := truthyOpt r.currentDayProfitLossPercentage
    account_hash := account_hash
    account_number := account_number
    account_type := account_type }

/-- transform_equity_position (schwab_service.py lines 313-353).
quantity is longQuantity alone (shortQuantity is not read);
cost_basis is quantity * averagePrice with contract multiplier 1. -/
def transform_equity_position (r : SchwabRawPosition) (symbol : String)
    (account_hash : String) (account_number account_type : Option String) : Leg :=
  let quantity : ℚ := r.longQuantity
  let cost_basis : ℚ := quantity * r.averagePrice
  { symbol := symbol
    underlying := symbol
    asset_type := "stock"
    option_type := none
    strike := none
    expiration := none
    quantity := quantity
    average_price := r.averagePrice
    current_price := if quantity ≠ 0 then r.marketValue / quantity else 0
    cost_basis := cost_basis
    current_value := r.marketValue
    unrealized_pnl := r.marketValue - cost_basis
    maintenance_requirement := truthyOpt r.maintenanceRequirement
    current_day_pnl := truthyOpt r.currentDayProfitLoss
    current_day_pnl_percentage := truthyOpt r.currentDayProfitLossPercentage
    account_hash := account_hash
    account_number := account_number
    account_type := account_type }

/-- A strategy group as built by group_positions_by_strategy: a dict
with strategy_type, legs and underlying. -/
structure StrategyGroup where
  strategy_type : String
  legs : List Leg
  underlying : String
deriving DecidableEq, Repr

/-- Strike of an option leg as used in the detector's numeric
comparisons (the source reads leg["strike"] directly). -/
def strikeOf (l : Leg) : ℚ := l.strike.getD 0

/-- Covered call pairing condition (schwab_service.py lines 410-412):
a short call whose contracts are covered by the stock quantity. -/
def coveredCallMatch (stock opt : Leg) : Bool :=
  opt.option_type == some "call" && decide (opt.quantity < 0) &&
    decide (ratAbs opt.quantity * 100 ≤ stock.quantity)

/-- Covered call detection loop (schwab_service.py lines 407-423): for
each stock in a snapshot of remaining_stocks, the first matching short
call of the current expiration bucket is paired with it; both legs are
removed from their pools and from the bucket. -/
def ccPhase (underlying : String) :
    List Leg → List Leg → List Leg → List Leg → List StrategyGroup →
    List Leg × List Leg × List Leg × List StrategyGroup
  | [], rs, ro, eo, det => (rs, ro, eo, det)
  | stock :: snap, rs, ro, eo, det =>
    match eo.find? (fun opt => coveredCallMatch stock opt) with
    | some opt =>
      ccPhase underlying snap (rs.erase stock) (ro.erase opt) (eo.erase opt)
        (det ++ [⟨"covered_call", [stock, opt], underlying⟩])
    | none => ccPhase underlying snap rs ro eo det

/-- Box spread detection (schwab_service.py lines 425-448): exactly 4
options in the bucket, 2 calls and 2 puts, one long and one short of
each, with crossed strikes within 0.1; on success the 4 legs are
removed from remaining_options and the bucket's vertical checks are
skipped. -/
def boxCheck (underlying : String) (eo ro : List Leg) (det : List StrategyGroup) :
    Option (List Leg × List StrategyGroup) :=
  if eo.length = 4 then
    let exp_calls := eo.filter (fun o => o.option_type == some "call")
    let exp_puts := eo.filter (fun o => o.option_type == some "put")
    if exp_calls.length = 2 ∧ exp_puts.length = 2 then
      match exp_calls.find? (fun c => decide (0 < c.quantity)),
            exp_calls.find? (fun c => decide (c.quantity < 0)),
            exp_puts.find? (fun p => decide (0 < p.quantity)),
            exp_puts.find? (fun p => decide (p.quantity < 0)) with
      | some call_long, some call_short, some put_long, some put_short =>
        if ratAbs (strikeOf call_long - strikeOf put_short) < 1/10 ∧
            ratAbs (strikeOf call_short - strikeOf put_long) < 1/10 then
          some ((((ro.erase call_long).erase call_short).erase put_long).erase put_short,
            det ++ [⟨"box_spread", [call_long, call_short, put_long, put_short], underlying⟩])
        else none
      | _, _, _, _ => none
    else none
  else none

/-- Put vertical spread detection (schwab_service.py lines 450-462):
exactly 2 unconsumed puts in the bucket, sorted by strike descending
(stable, as Python's sorted with reverse=True), grouped when the
higher strike is short and the lower is long. -/
def vertPuts (underlying : String) (eo ro : List Leg) (det : List StrategyGroup) :
    List Leg × List StrategyGroup :=
  let puts := eo.filter (fun o => o.option_type == some "put" && ro.contains o)
  match puts with
  | [a, b] =>
    let x := if strikeOf a < strikeOf b then b else a
    let y := if strikeOf a < strikeOf b then a else b
    if decide (x.quantity < 0) && decide (0 < y.quantity) then
      ((ro.erase x).erase y, det ++ [⟨"vertical_spread", [x, y], underlying⟩])
    else (ro, det)
  | _ => (ro, det)

/-- Call vertical spread detection (schwab_service.py lines 464-475):
exactly 2 unconsumed calls, sorted by strike ascending, grouped when
the lower strike is long and the higher is short. -/
def vertCalls (underlying : String) (eo ro : List Leg) (det : List StrategyGroup) :
    List Leg × List StrategyGroup :=
  let calls := eo.filter (fun o => o.option_type == some "call" && ro.contains o)
  match calls with
  | [a, b] =>
    let x := if strikeOf b < strikeOf a then b else a
    let y := if strikeOf b < strikeOf a then a else b
    if decide (0 < x.quantity) && decide (y.quantity < 0) then
      ((ro.erase x).erase y, det ++ [⟨"vertical_spread", [x, y], underlying⟩])
    else (ro, det)
  | _ => (ro, det)

/-- Detection state while processing one (underlying, account) group:
remaining stock pool, remaining option pool and detected groups. -/
structure DetectState where
  remaining_stocks : List Leg
  remaining_options : List Leg
  detected : List StrategyGroup
deriving Repr

/-- Processing of one expiration bucket (body of the loop at
schwab_service.py lines 405-475): covered calls, then either a box
spread (which ends the bucket) or the two vertical checks. -/
def processBucket (underlying : String) (st : DetectState) (cell : List Leg) : DetectState :=
  match ccPhase underlying st.remaining_stocks st.remaining_stocks st.remaining_options cell st.detected with
  | (rs, ro, eo, det) =>
    match boxCheck underlying eo ro det with
    | some (ro2, det2) => ⟨rs, ro2, det2⟩
    | none =>
      match vertPuts underlying eo ro det with
      | (ro1, det1) =>
        match vertCalls underlying eo ro1 det1 with
        | (ro2, det2) => ⟨rs, ro2, det2⟩

/-- The stock legs of one (underlying, account) group
(schwab_service.py line 389). -/
def stocksOf (group : List Leg) : List Leg := group.filter (fun p => p.asset_type == "stock")

/-- The option legs of one (underlying, account) group (line 390). -/
def optionsOf (group : List Leg) : List Leg := group.filter (fun p => p.asset_type == "option")

/-- The expiration bucket lists in first-occurrence order
(schwab_service.py lines 393-398). -/
def expCells (group : List Leg) : List (List Leg) :=
  (dedupFirst ((optionsOf group).map (fun o => o.expiration))).map
    (fun e => (optionsOf group).filter (fun o => o.expiration == e))

/-- The detection state after all expiration buckets of one group have
been processed (schwab_service.py lines 400-475). -/
def detectorFold (underlying : String) (group : List Leg) : DetectState :=
  (expCells group).foldl (processBucket underlying) ⟨stocksOf group, optionsOf group, []⟩

/-- Leftover stock legs become one-leg long_stock/short_stock groups
(schwab_service.py lines 481-495). -/
def leftoverStockGroup (underlying : String) (s : Leg) : StrategyGroup :=
  if 0 < s.quantity then ⟨"long_stock", [s], underlying⟩ else ⟨"short_stock", [s], underlying⟩

/-- Leftover option legs become one-leg big_option/single_option
groups with the 10-contract / 5000-dollar thresholds
(schwab_service.py lines 497-513). -/
def leftoverOptionGroup (underlying : String) (o : Leg) : StrategyGroup :=
  if 10 ≤ ratAbs o.quantity ∨ 5000 ≤ ratAbs o.cost_basis then ⟨"big_option", [o], underlying⟩
  else ⟨"single_option", [o], underlying⟩

/-- Strategy detection for the legs of one (underlying, account) pair
(schwab_service.py lines 387-513): split stocks/options, bucket
options by expiration, process buckets, then emit leftovers as
single-leg groups. -/
def processGroup (underlying : String) (group : List Leg) : List StrategyGroup :=
  (detectorFold underlying group).detected
    ++ (detectorFold underlying group).remaining_stocks.map (leftoverStockGroup underlying)
    ++ (detectorFold underlying group).remaining_options.map (leftoverOptionGroup underlying)

/-- group_positions_by_strategy (schwab_service.py lines 356-530): group
the input legs by (underlying, account_hash) in first-occurrence order
and run strategy detection on each group; the function returns the
concatenated groups unconditionally (the leg-count check at lines
521-528 only writes to the log). -/
def group_positions_by_strategy (positions : List Leg) : List StrategyGroup :=
  ((dedupFirst (positions.map (fun p => (p.underlying, p.account_hash)))).map (fun k =>
    processGroup k.1 (positions.filter (fun p => (p.underlying, p.account_hash) == k)))).flatten

/-- Total number of legs across a list of strategy groups. -/
def legsCount (gs : List StrategyGroup) : Nat := (gs.map (fun g => g.legs.length)).sum

/-- Modelled from the spec: the error surfacing required by §4.2/§7 for
a leg-count conservation violation ("must be surfaced to the caller as
an error for that user's sync rather than silently accepted").  The
source has no such error channel - group_positions_by_strategy only
logs the mismatch and returns the groups - so this checked variant is
the spec-side refinement to compare against. -/
def group_positions_checked (positions : List Leg) : Except String (List StrategyGroup) :=
  let res := group_positions_by_strategy positions
  if positions.length ≠ legsCount res then Except.error "position count mismatch"
  else Except.ok res

/-- A leg dictionary as seen by generate_position_signature
(position_signature.py).  The function reads asset_type, symbol,
option_type, strike and expiration only through their str() renderings
(both in the sort key and in the composed text), so those four are
modelled as the rendered strings (None renders as "None"); quantity is
read numerically; average_price and current_value are present in the
dictionaries but never read. -/
structure SigLeg where
  asset_type : String
  symbol : String
  option_type : String
  strike : String
  expiration : String
  quantity : ℚ
  average_price : ℚ
  current_value : ℚ
deriving DecidableEq, Repr

/-- Injective encoding of a string for lexicographic key comparison:
every character shifted above the separator 0. -/
def encStr (s : String) : List Nat := s.data.map (fun c => c.toNat + 1)

/-- The sort key of a leg (position_signature.py lines 36-41): the
tuple (asset_type, symbol, str(strike), str(expiration)).  Python's
lexicographic tuple-of-strings comparison coincides with lexicographic
comparison of these flat encodings, because the separator 0 is
strictly below every shifted character. -/
def sigSortKey (l : SigLeg) : List Nat :=
  encStr l.asset_type ++ 0 :: encStr l.symbol ++ 0 :: encStr l.strike ++ 0 :: encStr l.expiration

/-- Lexicographic order on lists of naturals. -/
def natLexLe : List Nat → List Nat → Bool
  | [], _ => true
  | _ :: _, [] => false
  | a :: as, b :: bs => if a < b then true else if b < a then false else natLexLe as bs

/-- Leg comparison used to sort legs before hashing. -/
def sigLegLe (a b : SigLeg) : Bool := natLexLe (sigSortKey a) (sigSortKey b)

/-- Stable insertion of an element into a sorted list. -/
def insertLe {α : Type} (le : α → α → Bool) (x : α) : List α → List α
  | [] => [x]
  | y :: t => if le x y then x :: y :: t else y :: insertLe le x t

/-- Stable insertion sort.  Python's sorted is also stable, and a
stable sort with respect to a total preorder has a unique result, so
this models position_signature.py line 36 exactly. -/
def insSort {α : Type} (le : α → α → Bool) : List α → List α
  | [] => []
  | x :: t => insertLe le x (insSort le t)

/-- Stock quantity bucket (position_signature.py lines 61-70),
applied to abs(quantity). -/
def qty_range (q : ℚ) : String :=
  if q < 10 then "tiny" else if q < 100 then "small" else if q < 1000 then "medium" else "large"

/-- Rendered text contributed by one leg (position_signature.py lines
54-71): option legs contribute option_type:strike:expiration, other
legs contribute their quantity bucket. -/
def legRender (l : SigLeg) : List Char :=
  "leg:".data ++ l.asset_type.data ++ ":".data ++ l.symbol.data ++ ":".data ++
    (if l.asset_type = "option" then
      l.option_type.data ++ ":".data ++ l.strike.data ++ ":".data ++ l.expiration.data
     else "qty_range:".data ++ (qty_range (ratAbs l.quantity)).data)

/-- The composed pre-hash text (position_signature.py lines 44-76):
symbol and account header parts followed by the sorted legs' parts,
joined with the bar separator. -/
def signature_string (legs : List SigLeg) (symbol account_hash : String) : List Char :=
  joinSep '|'
    (("symbol:".data ++ symbol.data) :: ("account:".data ++ account_hash.data) ::
      (insSort sigLegLe legs).map legRender)

/-- generate_position_signature (position_signature.py lines 12-77),
parametric over the digest d applied to the composed text (hashlib
sha256 hexdigest in the source).  An empty leg list returns the empty
string without hashing. -/
def generate_position_signature (d : List Char → String) (legs : List SigLeg)
    (symbol account_hash : String) : String :=
  if legs.isEmpty then "" else d (signature_string legs symbol account_hash)

/-- signatures_match (position_signature.py lines 114-127): false when
either signature is empty, plain equality otherwise. -/
def signatures_match (sig1 sig2 : String) : Bool :=
  if sig1 == "" || sig2 == "" then false else sig1 == sig2

/-- The identity digest, used to instantiate the digest parameter in
concrete counterexamples; it is trivially injective on composed
texts. -/
def strId (s : List Char) : String := String.mk s

/-- A persisted position leg row (PositionLeg in models/position.py,
restricted to the columns written by sync_schwab_positions). -/
structure PositionLegRow where
  position_id : Nat
  symbol : String
  asset_type : String
  option_type : Option String
  strike : Option ℚ
  expiration : Option String
  quantity : ℚ
  premium : ℚ
  current_price : ℚ
deriving DecidableEq, Repr

/-- A persisted position row (Position in models/position.py,
restricted to the columns read or written by sync_schwab_positions).
Dates and timestamps are abstract naturals. -/
structure DBPosition where
  id : Nat
  user_id : Nat
  flavor : String
  account_id : String
  account_number : Option String
  symbol : String
  underlying : String
  strategy_type : String
  status : String
  quantity : ℚ
  cost_basis : ℚ
  current_value : ℚ
  unrealized_pnl : ℚ
  maintenance_requirement : ℚ
  current_day_pnl : ℚ
  current_day_pnl_percentage : Option ℚ
  entry_date : Option Nat
  exit_date : Option Nat
  notes : Option String
  tags : List String
  last_synced : Option Nat
  read_only : Bool
  legs : List PositionLegRow
deriving DecidableEq, Repr

/-- Aggregate: algebraic sum of leg cost bases (position_service.py
line 304). -/
def total_cost (legs : List Leg) : ℚ := (legs.map (fun l => l.cost_basis)).sum

/-- Aggregate: sum of leg market values (line 307). -/
def total_value (legs : List Leg) : ℚ := (legs.map (fun l => l.current_value)).sum

/-- Aggregate: total value minus total cost (line 310). -/
def total_pnl (legs : List Leg) : ℚ := total_value legs - total_cost legs

/-- Aggregate: sum of absolute leg quantities (line 313). -/
def total_quantity (legs : List Leg) : ℚ := (legs.map (fun l => ratAbs l.quantity)).sum

/-- Aggregate: sum of maintenance requirements with None as 0
(line 316). -/
def total_maintenance (legs : List Leg) : ℚ :=
  (legs.map (fun l => l.maintenance_requirement.getD 0)).sum

/-- Aggregate: sum of day P&L with None as 0 (line 319). -/
def total_day_pnl (legs : List Leg) : ℚ := (legs.map (fun l => l.current_day_pnl.getD 0)).sum

/-- Aggregate: day P&L percentage, None when total cost is zero
(line 322). -/
def total_day_pnl_pct (legs : List Leg) : Option ℚ :=
  if total_cost legs = 0 then none else some (total_day_pnl legs / total_cost legs * 100)

/-- A PositionLeg row built from a grouped leg dictionary
(position_service.py lines 351-363 and 395-407). -/
def mkLegRow (pid : Nat) (l : Leg) : PositionLegRow :=
  { position_id := pid
    symbol := l.symbol
    asset_type := l.asset_type
    option_type := l.option_type
    strike := l.strike
    expiration := l.expiration
    quantity := l.quantity
    premium := l.average_price
    current_price := l.current_price }

/-- In-place update of an existing position matched by key
(position_service.py lines 335-363): the seven aggregate columns,
last_synced, status and the owned legs are replaced; nothing else is
assigned. -/
def updateExistingPosition (now : Nat) (legs : List Leg) (p : DBPosition) : DBPosition :=
  { p with
    quantity := total_quantity legs
    cost_basis := total_cost legs
    current_value := total_value legs
    unrealized_pnl := total_pnl legs
    maintenance_requirement := total_maintenance legs
    current_day_pnl := total_day_pnl legs
    current_day_pnl_percentage := total_day_pnl_pct legs
    last_synced := some now
    status := "active"
    legs := legs.map (mkLegRow p.id) }

/-- Entry date used for newly created positions (position_service.py
lines 326-329): today's date when some leg has an expiration, None
otherwise. -/
def entryDateOf (legs : List Leg) (today : Nat) : Option Nat :=
  if legs.any (fun l => l.expiration.isSome) then some today else none

/-- Creation of a new actual position from a strategy group
(position_service.py lines 369-389). -/
def createPosition (user today now id : Nat) (g : StrategyGroup)
    (account_hash : String) (account_number : Option String) : DBPosition :=
  { id := id
    user_id := user
    flavor := "actual"
    account_id := account_hash
    account_number := account_number
    symbol := g.underlying
    underlying := g.underlying
    strategy_type := g.strategy_type
    status := "active"
    quantity := total_quantity g.legs
    cost_basis := total_cost g.legs
    current_value := total_value g.legs
    unrealized_pnl := total_pnl g.legs
    maintenance_requirement := total_maintenance g.legs
    current_day_pnl := total_day_pnl g.legs
    current_day_pnl_percentage := total_day_pnl_pct g.legs
    entry_date := entryDateOf g.legs today
    exit_date := none
    notes := none
    tags := []
    last_synced := some now
    read_only := true
    legs := g.legs.map (mkLegRow id) }

/-- The reconciliation key of a persisted position
(position_service.py line 281): (symbol, account_id, strategy_type). -/
def keyOfPos (p : DBPosition) : String × String × String := (p.symbol, p.account_id, p.strategy_type)

/-- Insert-or-overwrite into an association list, modelling one step of
a Python dict comprehension (later entries overwrite earlier ones). -/
def upsert (m : List ((String × String × String) × Nat)) (k : String × String × String) (v : Nat) :
    List ((String × String × String) × Nat) :=
  if m.any (fun e => e.1 == k) then m.map (fun e => if e.1 == k then (k, v) else e)
  else m ++ [(k, v)]

/-- existing_by_key (position_service.py lines 280-283): the dict from
key to position, built over the existing actual positions in order,
with last-wins overwriting; values are modelled by position id. -/
def buildKeyMap (ps : List DBPosition) : List ((String × String × String) × Nat) :=
  ps.foldl (fun m p => upsert m (keyOfPos p) p.id) []

/-- Dictionary lookup in the key map. -/
def alookup (m : List ((String × String × String) × Nat)) (k : String × String × String) :
    Option Nat :=
  (m.find? (fun e => e.1 == k)).map (fun e => e.2)

/-- Dictionary key deletion (the `del existing_by_key[position_key]`
at position_service.py line 366). -/
def adel (m : List ((String × String × String) × Nat)) (k : String × String × String) :
    List ((String × String × String) × Nat) :=
  m.filter (fun e => !(e.1 == k))

/-- Reconciliation state: the position table, the unconsumed key map
and the id counter for created rows. -/
structure SyncState where
  db : List DBPosition
  keymap : List ((String × String × String) × Nat)
  nextId : Nat
deriving Repr

/-- Processing of one strategy group during sync (position_service.py
lines 288-409): groups without legs are skipped; the key
(underlying, first leg's account hash, strategy_type) is looked up in
the unconsumed map; a hit updates that position in place and consumes
the key, a miss creates a new position (which does not enter the
map). -/
def syncStep (user today now : Nat) (st : SyncState) (g : StrategyGroup) : SyncState :=
  match g.legs with
  | [] => st
  | first_leg :: _ =>
    match alookup st.keymap (g.underlying, first_leg.account_hash, g.strategy_type) with
    | some pid =>
      { st with
        db := st.db.map (fun p => if p.id == pid then updateExistingPosition now g.legs p else p)
        keymap := adel st.keymap (g.underlying, first_leg.account_hash, g.strategy_type) }
    | none =>
      { st with
        db := st.db ++ [createPosition user today now st.nextId g first_leg.account_hash first_leg.account_number]
        nextId := st.nextId + 1 }

/-- The closing pass after all groups are processed
(position_service.py lines 411-414): every row whose id is still a
value of the unconsumed key map is marked closed with exit_date set to
today; no row is removed. -/
def closeUnconsumed (today : Nat) (st : SyncState) : List DBPosition :=
  st.db.map (fun p =>
    if st.keymap.any (fun e => e.2 == p.id) then { p with status := "closed", exit_date := some today }
    else p)

/-- sync_schwab_positions reconciliation (position_service.py lines
274-422): process every grouped position against the existing actual
positions, then mark the positions still present in the unconsumed key
map as closed with exit_date set to today; rows are never removed from
the table. -/
def sync_schwab_positions (user today now nextId : Nat) (existing : List DBPosition)
    (grouped : List StrategyGroup) : List DBPosition :=
  closeUnconsumed today (grouped.foldl (syncStep user today now) ⟨existing, buildKeyMap existing, nextId⟩)

/-- Modelled from the spec: a strategy group as the Reconciler input of
§3/§4.4, with its own account_id and the signature attached by the
Signature Generator.  The lock-aware reconciler this feeds is absent
from src - only the add_strategy_locking.py migration, the
position_signature.py helpers and the debug scripts refer to it. -/
structure SpecGroup where
  underlying : String
  account_id : String
  strategy_type : String
  signature : String
  legs : List Leg
deriving DecidableEq, Repr

/-- Modelled from the spec: a persisted actual position as seen by the
lock-aware reconciler of §4.4, including the is_manual_strategy lock
flag and the stored signature added by the add_strategy_locking.py
migration (columns absent from the Position model in src). -/
structure SpecPosition where
  id : Nat
  underlying : String
  account_id : String
  strategy_type : String
  is_manual_strategy : Bool
  schwab_position_signature : String
  status : String
  exit_date : Option Nat
  quantity : ℚ
  cost_basis : ℚ
  current_value : ℚ
  unrealized_pnl : ℚ
  maintenance_requirement : ℚ
  current_day_pnl : ℚ
  legs : List Leg
deriving DecidableEq, Repr

/-- Modelled from the spec: the primary key match of §4.4,
(underlying, account_id, strategy_type). -/
def specKeyMatch (g : SpecGroup) (p : SpecPosition) : Bool :=
  p.underlying == g.underlying && p.account_id == g.account_id &&
    p.strategy_type == g.strategy_type

/-- Modelled from the spec: in-place update of an unlocked key-matched
position (§4.4: update aggregates and signature, replace legs, set
status active). -/
def updateUnlockedSpec (g : SpecGroup) (p : SpecPosition) : SpecPosition :=
  { p with
    quantity := total_quantity g.legs
    cost_basis := total_cost g.legs
    current_value := total_value g.legs
    unrealized_pnl := total_pnl g.legs
    maintenance_requirement := total_maintenance g.legs
    current_day_pnl := total_day_pnl g.legs
    schwab_position_signature := g.signature
    status := "active"
    legs := g.legs }

/-- Modelled from the spec: update of a locked position found by
signature match (§4.4: update aggregates and legs while preserving
strategy_type and the lock flag; the stored signature equals the
group's signature and is kept). -/
def updateLockedSpec (g : SpecGroup) (p : SpecPosition) : SpecPosition :=
  { p with
    quantity := total_quantity g.legs
    cost_basis := total_cost g.legs
    current_value := total_value g.legs
    unrealized_pnl := total_pnl g.legs
    maintenance_requirement := total_maintenance g.legs
    current_day_pnl := total_day_pnl g.legs
    status := "active"
    legs := g.legs }

/-- Modelled from the spec: creation of a new position from a group
(§4.4: status active, is_manual_strategy false). -/
def createSpecPosition (g : SpecGroup) (id : Nat) : SpecPosition :=
  { id := id
    underlying := g.underlying
    account_id := g.account_id
    strategy_type := g.strategy_type
    is_manual_strategy := false
    schwab_position_signature := g.signature
    status := "active"
    exit_date := none
    quantity := total_quantity g.legs
    cost_basis := total_cost g.legs
    current_value := total_value g.legs
    unrealized_pnl := total_pnl g.legs
    maintenance_requirement := total_maintenance g.legs
    current_day_pnl := total_day_pnl g.legs
    legs := g.legs }

/-- Modelled from the spec: reconciler state - finalized positions,
unconsumed previous positions, id counter. -/
structure SpecState where
  done : List SpecPosition
  remaining : List SpecPosition
  nextId : Nat
deriving Repr

/-- Modelled from the spec: processing of one signed group (§4.4).  An
unlocked key match is updated in place and consumed.  When the key
match is absent or locked, the unconsumed locked positions are
searched for a signature match (the locked label may not equal the
freshly detected label, §4.4/§8), which is updated with strategy_type
and lock flag preserved; otherwise a new position is created. -/
def reconcileStep (st : SpecState) (g : SpecGroup) : SpecState :=
  let lockedBySig := st.remaining.find? (fun q =>
    q.is_manual_strategy && signatures_match q.schwab_position_signature g.signature)
  match st.remaining.find? (fun p => specKeyMatch g p) with
  | some p =>
    if p.is_manual_strategy then
      match lockedBySig with
      | some q => { st with done := st.done ++ [updateLockedSpec g q], remaining := st.remaining.erase q }
      | none =>
        { st with done := st.done ++ [createSpecPosition g st.nextId], nextId := st.nextId + 1 }
    else { st with done := st.done ++ [updateUnlockedSpec g p], remaining := st.remaining.erase p }
  | none =>
    match lockedBySig with
    | some q => { st with done := st.done ++ [updateLockedSpec g q], remaining := st.remaining.erase q }
    | none => { st with done := st.done ++ [createSpecPosition g st.nextId], nextId := st.nextId + 1 }

/-- Modelled from the spec: the lock-aware reconciliation of §4.4
(absent from src): process all signed groups, then close every
unconsumed position with exit_date set to today; nothing is deleted. -/
def reconcile_spec (existing : List SpecPosition) (groups : List SpecGroup)
    (today nextId : Nat) : List SpecPosition :=
  let st := groups.foldl reconcileStep ⟨[], existing, nextId⟩
  st.done ++ st.remaining.map (fun p => { p with status := "closed", exit_date := some today })

/-- Two signature legs that agree on every field except quantity,
average_price and current_value: the modification considered by the
price-invariance property. -/
def sigStructEq (a b : SigLeg) : Prop :=
  a.asset_type = b.asset_type ∧ a.symbol = b.symbol ∧ a.option_type = b.option_type ∧
    a.strike = b.strike ∧ a.expiration = b.expiration

/-- Structural agreement that additionally preserves the stock
quantity bucket (vacuous for option legs, whose rendering ignores
quantity). -/
def sigDriftEquiv (a b : SigLeg) : Prop :=
  sigStructEq a b ∧
    (a.asset_type = "option" ∨ qty_range (ratAbs a.quantity) = qty_range (ratAbs b.quantity))

/-- A signature leg none of whose rendered fields contains the bar
separator used to join the composed text. -/
def sigLegClean (l : SigLeg) : Prop :=
  '|' ∉ l.asset_type.data ∧ '|' ∉ l.symbol.data ∧ '|' ∉ l.option_type.data ∧
    '|' ∉ l.strike.data ∧ '|' ∉ l.expiration.data

instance (l : SigLeg) : Decidable (sigLegClean l) := by
  unfold sigLegClean
  infer_instance

/-- A stock leg of 5 shares: quantity bucket tiny. -/
def stockLegA : SigLeg :=
  { asset_type := "stock", symbol := "AAPL", option_type := "None", strike := "None",
    expiration := "None", quantity := 5, average_price := 450, current_value := 2250 }

/-- The same stock leg with 50 shares: quantity bucket small. -/
def stockLegB : SigLeg :=
  { asset_type := "stock", symbol := "AAPL", option_type := "None", strike := "None",
    expiration := "None", quantity := 50, average_price := 450, current_value := 22500 }

/-- A demonstration normalized stock leg. -/
def demoStock : Leg :=
  { symbol := "AAPL", underlying := "AAPL", asset_type := "stock", option_type := none,
    strike := none, expiration := none, quantity := 100, average_price := 150,
    current_price := 160, cost_basis := 15000, current_value := 16000,
    unrealized_pnl := 1000, maintenance_requirement := none, current_day_pnl := none,
    current_day_pnl_percentage := none, account_hash := "acct1",
    account_number := some "****1234", account_type := some "MARGIN" }

/-- A demonstration normalized short call leg on the same underlying
and account. -/
def demoCall : Leg :=
  { symbol := "AAPL  250321C00200000", underlying := "AAPL", asset_type := "option",
    option_type := some "call", strike := some 200, expiration := some "2025-03-21",
    quantity := -1, average_price := 5, current_price := 4, cost_basis := -500,
    current_value := -400, unrealized_pnl := 100, maintenance_requirement := none,
    current_day_pnl := none, current_day_pnl_percentage := none, account_hash := "acct1",
    account_number := some "****1234", account_type := some "MARGIN" }

/-- A leg whose asset type is neither stock nor option: the detector
drops it from both pools, so conservation fails on it. -/
def demoBad : Leg :=
  { demoStock with asset_type := "COLLECTIVE_INVESTMENT" }

/-- The reconciliation key a strategy group addresses during sync
(position_service.py line 332), None for a group without legs (such
groups are skipped). -/
def groupKey? (g : StrategyGroup) : Option (String × String × String) :=
  match g.legs with
  | [] => none
  | l :: _ => some (g.underlying, l.account_hash, g.strategy_type)

/-- A persisted actual position used in concrete reconciliation
scenarios. -/
def p1ex : DBPosition :=
  { id := 1, user_id := 0, flavor := "actual", account_id := "acct1",
    account_number := some "****1234", symbol := "SPY", underlying := "SPY",
    strategy_type := "vertical_spread", status := "active", quantity := 2,
    cost_basis := 100, current_value := 120, unrealized_pnl := 20,
    maintenance_requirement := 0, current_day_pnl := 0,
    current_day_pnl_percentage := none, entry_date := some 1, exit_date := none,
    notes := none, tags := [], last_synced := some 5, read_only := true, legs := [] }

/-- A second persisted actual position with the same reconciliation
key as the first but a different id. -/
def p2ex : DBPosition :=
  { p1ex with id := 2 }

/-- Invariant carried through the group-processing fold for a
persisted position p whose key no group consumes: p's row is the first
(and by distinct ids only) row of its id and is unchanged, the
unconsumed key map still sends keyOfPos p to p.id, and p.id is the
value of no other key. -/
def C3inv (p : DBPosition) (st : SyncState) : Prop :=
  st.db.find? (fun (r : DBPosition) => r.id == p.id) = some p ∧
  (∃ e ∈ st.keymap, e.1 = keyOfPos p ∧ e.2 = p.id) ∧
  (∀ e ∈ st.keymap, e.2 = p.id → e.1 = keyOfPos p)

/-- An option leg with a sort key different from the stock legs'. -/
def optLegP : SigLeg :=
  { asset_type := "option", symbol := "AAPL  250321C00200000", option_type := "call",
    strike := "200.0", expiration := "2025-03-21", quantity := -1, average_price := 5,
    current_value := -500 }

/-- A persisted position carrying the §4.4 lock: manually relabelled
unallocated, signature s1. -/
def pLock : SpecPosition :=
  { id := 10, underlying := "SPY", account_id := "acct1", strategy_type := "unallocated",
    is_manual_strategy := true, schwab_position_signature := "s1", status := "active",
    exit_date := none, quantity := 1, cost_basis := 0, current_value := 0,
    unrealized_pnl := 0, maintenance_requirement := 0, current_day_pnl := 0, legs := [] }

/-- A freshly detected group over the same legs: the detector labels
it single_option, but its signature still matches pLock's. -/
def gSpec : SpecGroup :=
  { underlying := "SPY", account_id := "acct1", strategy_type := "single_option",
    signature := "s1", legs := [demoCall] }

/-
Theorems.  Claim theorems are named C1_..., C2_..., and so on; shared
lemmas carry descriptive names.
-/

/-- C7: for every normalized leg, cost_basis is
-(|quantity| * average_price * multiplier) when quantity is negative
and |quantity| * average_price * multiplier when quantity is
nonnegative, with multiplier 100 for options and 1 for stock; in
particular an option record with long 0, short 5 and average price
2.00 yields cost_basis -1000. -/
theorem C7_cost_basis_sign_convention :
    (∀ (r : SchwabRawPosition) (sym und pc : String) (strike : Option ℚ) (expi : Option String)
      (ah : String) (an aty : Option String),
      (transform_option_position r sym und pc strike expi ah an aty).cost_basis =
        if (transform_option_position r sym und pc strike expi ah an aty).quantity < 0 then
          -(ratAbs (transform_option_position r sym und pc strike expi ah an aty).quantity *
            (transform_option_position r sym und pc strike expi ah an aty).average_price * 100)
        else
          ratAbs (transform_option_position r sym und pc strike expi ah an aty).quantity *
            (transform_option_position r sym und pc strike expi ah an aty).average_price * 100)
    ∧ (∀ (r : SchwabRawPosition) (sym ah : String) (an aty : Option String),
      (transform_equity_position r sym ah an aty).cost_basis =
        if (transform_equity_position r sym ah an aty).quantity < 0 then
          -(ratAbs (transform_equity_position r sym ah an aty).quantity *
            (transform_equity_position r sym ah an aty).average_price * 1)
        else
          ratAbs (transform_equity_position r sym ah an aty).quantity *
            (transform_equity_position r sym ah an aty).average_price * 1)
    ∧ (transform_option_position ⟨0, 5, 2, 0, none, none, none⟩ "S" "S" "call" none none
        "h" none none).cost_basis = -1000 := by
  refine ⟨fun r sym und pc strike expi ah an aty => rfl, fun r sym ah an aty => ?_, ?_⟩
  · show r.longQuantity * r.averagePrice = _
    by_cases h : r.longQuantity < 0
    · rw [if_pos (show (transform_equity_position r sym ah an aty).quantity < 0 from h)]
      show _ = -(ratAbs r.longQuantity * r.averagePrice * 1)
      rw [ratAbs, if_pos h]; ring
    · rw [if_neg (show ¬(transform_equity_position r sym ah an aty).quantity < 0 from h)]
      show _ = ratAbs r.longQuantity * r.averagePrice * 1
      rw [ratAbs, if_neg h]; ring
  · show (if (0 : ℚ) - 5 < 0 then -(ratAbs ((0 : ℚ) - 5) * 2 * 100) else ratAbs ((0 : ℚ) - 5) * 2 * 100) = -1000
    norm_num [ratAbs]

/-- C8 counterexample: an equity record with longQuantity 0 and
shortQuantity 5 is normalized with quantity 0, not
longQuantity - shortQuantity = -5, because transform_equity_position
never reads shortQuantity. -/
theorem C8_counterexample :
    (transform_equity_position ⟨0, 5, 10, 0, none, none, none⟩ "XYZ" "h" none none).quantity = 0
    ∧ ((0 : ℚ) - 5 ≠ 0) := by
  refine ⟨rfl, by norm_num⟩

/-- C8 amended: option records are normalized with signed quantity
longQuantity - shortQuantity, while equity records are normalized with
quantity longQuantity alone (shortQuantity is ignored). -/
theorem C8_amended_quantity :
    (∀ (r : SchwabRawPosition) (sym und pc : String) (strike : Option ℚ) (expi : Option String)
      (ah : String) (an aty : Option String),
      (transform_option_position r sym und pc strike expi ah an aty).quantity =
        r.longQuantity - r.shortQuantity)
    ∧ (∀ (r : SchwabRawPosition) (sym ah : String) (an aty : Option String),
      (transform_equity_position r sym ah an aty).quantity = r.longQuantity) :=
  ⟨fun _ _ _ _ _ _ _ _ _ => rfl, fun _ _ _ _ _ => rfl⟩

/-- C9: generate_position_signature on an empty leg list returns the
empty string for every digest, and signatures_match returns false
whenever either argument is empty, including when both are. -/
theorem C9_empty_signature_never_matches :
    (∀ (d : List Char → String) (sym ah : String), generate_position_signature d [] sym ah = "")
    ∧ (∀ s1 s2 : String, s1 = "" ∨ s2 = "" → signatures_match s1 s2 = false) := by
  constructor
  · intro d sym ah; rfl
  · intro s1 s2 h
    rcases h with h | h <;> subst h <;> simp [signatures_match]

/-- Witness for C9: the empty signature does not match itself. -/
theorem C9_witness : signatures_match "" "" = false :=
  C9_empty_signature_never_matches.2 "" "" (Or.inl rfl)

/-- C10: the in-place update of a key-matched position rewrites exactly
the aggregate columns, status, last_synced and the owned legs, and
leaves id, user_id, flavor, symbol, underlying, account_id,
account_number, strategy_type, entry_date, notes and tags unchanged. -/
theorem C10_update_in_place_frame :
    ∀ (now : Nat) (legs : List Leg) (p : DBPosition),
      (updateExistingPosition now legs p).id = p.id ∧
      (updateExistingPosition now legs p).user_id = p.user_id ∧
      (updateExistingPosition now legs p).flavor = p.flavor ∧
      (updateExistingPosition now legs p).symbol = p.symbol ∧
      (updateExistingPosition now legs p).underlying = p.underlying ∧
      (updateExistingPosition now legs p).account_id = p.account_id ∧
      (updateExistingPosition now legs p).account_number = p.account_number ∧
      (updateExistingPosition now legs p).strategy_type = p.strategy_type ∧
      (updateExistingPosition now legs p).entry_date = p.entry_date ∧
      (updateExistingPosition now legs p).notes = p.notes ∧
      (updateExistingPosition now legs p).tags = p.tags ∧
      (updateExistingPosition now legs p).read_only = p.read_only ∧
      (updateExistingPosition now legs p).exit_date = p.exit_date ∧
      (updateExistingPosition now legs p).quantity = total_quantity legs ∧
      (updateExistingPosition now legs p).cost_basis = total_cost legs ∧
      (updateExistingPosition now legs p).current_value = total_value legs ∧
      (updateExistingPosition now legs p).unrealized_pnl = total_pnl legs ∧
      (updateExistingPosition now legs p).maintenance_requirement = total_maintenance legs ∧
      (updateExistingPosition now legs p).current_day_pnl = total_day_pnl legs ∧
      (updateExistingPosition now legs p).current_day_pnl_percentage = total_day_pnl_pct legs ∧
      (updateExistingPosition now legs p).status = "active" ∧
      (updateExistingPosition now legs p).last_synced = some now ∧
      (updateExistingPosition now legs p).legs = legs.map (mkLegRow p.id) :=
  fun _ _ _ =>
    ⟨rfl, rfl, rfl, rfl, rfl, rfl, rfl, rfl, rfl, rfl, rfl, rfl, rfl, rfl, rfl, rfl, rfl,
      rfl, rfl, rfl, rfl, rfl, rfl⟩

/-- The lexicographic order on lists of naturals is total. -/
theorem natLexLe_total (a b : List Nat) : natLexLe a b = true ∨ natLexLe b a = true := by
  induction a generalizing b with
  | nil => left; rfl
  | cons x as ih =>
    cases b with
    | nil => right; rfl
    | cons y bs =>
      by_cases h1 : x < y
      · left; simp [natLexLe, h1]
      · by_cases h2 : y < x
        · right; simp [natLexLe, h2]
        · have hxy : x = y := Nat.le_antisymm (Nat.not_lt.mp h2) (Nat.not_lt.mp h1)
          subst hxy
          rcases ih bs with h | h
          · left; simpa [natLexLe] using h
          · right; simpa [natLexLe] using h

/-- The lexicographic order on lists of naturals is transitive. -/
theorem natLexLe_trans : ∀ {a b c : List Nat},
    natLexLe a b = true → natLexLe b c = true → natLexLe a c = true
  | [], _, _, _, _ => rfl
  | _ :: _, [], _, hab, _ => by simp [natLexLe] at hab
  | _ :: _, _ :: _, [], _, hbc => by simp [natLexLe] at hbc
  | x :: as, y :: bs, z :: cs, hab, hbc => by
    by_cases h1 : x < y
    · by_cases h2 : y < z
      · simp [natLexLe, Nat.lt_trans h1 h2]
      · by_cases h3 : z < y
        · simp [natLexLe, h2, h3] at hbc
        · have : y = z := Nat.le_antisymm (Nat.not_lt.mp h3) (Nat.not_lt.mp h2)
          subst this
          simp [natLexLe, h1]
    · by_cases h4 : y < x
      · simp [natLexLe, h1, h4] at hab
      · have hxy : x = y := Nat.le_antisymm (Nat.not_lt.mp h4) (Nat.not_lt.mp h1)
        subst hxy
        by_cases h2 : x < z
        · simp [natLexLe, h2]
        · by_cases h3 : z < x
          · simp [natLexLe, h2, h3] at hbc
          · have hxz : x = z := Nat.le_antisymm (Nat.not_lt.mp h3) (Nat.not_lt.mp h2)
            subst hxz
            simp only [natLexLe, lt_irrefl, if_false] at hab hbc ⊢
            exact natLexLe_trans hab hbc

/-- The lexicographic order on lists of naturals is antisymmetric. -/
theorem natLexLe_antisymm : ∀ {a b : List Nat},
    natLexLe a b = true → natLexLe b a = true → a = b
  | [], [], _, _ => rfl
  | [], _ :: _, _, hba => by simp [natLexLe] at hba
  | _ :: _, [], hab, _ => by simp [natLexLe] at hab
  | x :: as, y :: bs, hab, hba => by
    by_cases h1 : x < y
    · simp [natLexLe, h1, Nat.lt_asymm h1] at hba
    · by_cases h2 : y < x
      · simp [natLexLe, h1, h2] at hab
      · have hxy : x = y := Nat.le_antisymm (Nat.not_lt.mp h2) (Nat.not_lt.mp h1)
        subst hxy
        simp only [natLexLe, lt_irrefl, if_false] at hab hba
        exact congrArg (x :: ·) (natLexLe_antisymm hab hba)

/-- Inserting an element produces a permutation of consing it. -/
theorem insertLe_perm {α : Type} (le : α → α → Bool) (x : α) :
    ∀ l : List α, List.Perm (insertLe le x l) (x :: l)
  | [] => List.Perm.refl _
  | y :: t => by
    by_cases h : le x y = true
    · simp [insertLe, h]
    · simp only [insertLe, h, if_false]
      exact ((insertLe_perm le x t).cons y).trans (List.Perm.swap x y t)

/-- Insertion sort produces a permutation of its input. -/
theorem insSort_perm {α : Type} (le : α → α → Bool) :
    ∀ l : List α, List.Perm (insSort le l) l
  | [] => List.Perm.refl _
  | x :: t => (insertLe_perm le x (insSort le t)).trans ((insSort_perm le t).cons x)

/-- Inserting into a sorted list keeps it sorted, for a total and
transitive comparison. -/
theorem insertLe_sorted {α : Type} (le : α → α → Bool)
    (htot : ∀ a b, le a b = true ∨ le b a = true)
    (htrans : ∀ {a b c}, le a b = true → le b c = true → le a c = true)
    (x : α) : ∀ l : List α, l.Pairwise (fun a b => le a b = true) →
      (insertLe le x l).Pairwise (fun a b => le a b = true)
  | [], _ => by simp [insertLe]
  | y :: t, h => by
    rcases List.pairwise_cons.mp h with ⟨hy, ht⟩
    by_cases hxy : le x y = true
    · simp only [insertLe, hxy, if_true]
      refine List.pairwise_cons.mpr ⟨?_, h⟩
      intro b hb
      rcases List.mem_cons.mp hb with rfl | hb
      · exact hxy
      · exact htrans hxy (hy b hb)
    · simp only [insertLe, hxy, if_false]
      refine List.pairwise_cons.mpr ⟨?_, insertLe_sorted le htot htrans x t ht⟩
      intro b hb
      have hb' := (insertLe_perm le x t).mem_iff.mp hb
      rcases List.mem_cons.mp hb' with rfl | hb'
      · rcases htot b y with h' | h'
        · exact absurd h' hxy
        · exact h'
      · exact hy b hb'

/-- Insertion sort sorts, for a total and transitive comparison. -/
theorem insSort_sorted {α : Type} (le : α → α → Bool)
    (htot : ∀ a b, le a b = true ∨ le b a = true)
    (htrans : ∀ {a b c}, le a b = true → le b c = true → le a c = true) :
    ∀ l : List α, (insSort le l).Pairwise (fun a b => le a b = true)
  | [] => List.Pairwise.nil
  | x :: t => insertLe_sorted le htot htrans x _ (insSort_sorted le htot htrans t)

/-- Two sorted lists that are permutations of each other and whose
elements are pairwise separated by the order are equal. -/
theorem sorted_perm_eq {α : Type} (le : α → α → Bool) :
    ∀ {l₁ l₂ : List α}, List.Perm l₁ l₂ →
      l₁.Pairwise (fun a b => le a b = true) →
      l₂.Pairwise (fun a b => le a b = true) →
      (∀ a ∈ l₁, ∀ b ∈ l₁, le a b = true → le b a = true → a = b) →
      l₁ = l₂
  | [], l₂, hp, _, _, _ => (List.Perm.nil_eq hp).symm ▸ rfl
  | x :: t, [], hp, _, _, _ => absurd hp.symm (by simp [List.Perm.nil_eq, List.nil_perm])
  | x :: t, y :: u, hp, h1, h2, hanti => by
    rcases List.pairwise_cons.mp h1 with ⟨hx, ht⟩
    rcases List.pairwise_cons.mp h2 with ⟨hy, hu⟩
    have hxy : x = y := by
      have hxmem : x ∈ y :: u := hp.mem_iff.mp (List.mem_cons_self x t)
      have hymem : y ∈ x :: t := hp.symm.mem_iff.mp (List.mem_cons_self y u)
      rcases List.mem_cons.mp hxmem with h | hxu
      · exact h
      · rcases List.mem_cons.mp hymem with h | hyt
        · exact h.symm
        · exact hanti x (List.mem_cons_self x t) y (List.mem_cons_of_mem x hyt)
            (hx y hyt) (hy x hxu)
    subst hxy
    have htu : List.Perm t u := hp.cons_inv
    have : t = u := sorted_perm_eq le htu ht hu (fun a ha b hb =>
      hanti a (List.mem_cons_of_mem x ha) b (List.mem_cons_of_mem x hb))
    rw [this]

/-- C4 counterexample: two stock legs of the same symbol whose only
difference is the quantity bucket have equal sort keys, so the stable
sort preserves their input order and swapping them changes the
composed text, hence the signature for any injective digest (here the
identity digest). -/
theorem C4_counterexample :
    List.Perm [stockLegA, stockLegB] [stockLegB, stockLegA] ∧
    generate_position_signature strId [stockLegA, stockLegB] "AAPL" "h1" ≠
      generate_position_signature strId [stockLegB, stockLegA] "AAPL" "h1" := by
  constructor
  · decide
  · decide

/-- C4 amended: permuting the leg list does not change the signature,
for any digest, provided legs with equal sort keys
(asset_type, symbol, str strike, str expiration) are equal. -/
theorem C4_signature_perm_invariance (d : List Char → String) (legs legs' : List SigLeg)
    (sym ah : String) (hperm : List.Perm legs legs')
    (hinj : ∀ a ∈ legs, ∀ b ∈ legs, sigSortKey a = sigSortKey b → a = b) :
    generate_position_signature d legs sym ah = generate_position_signature d legs' sym ah := by
  have htot : ∀ a b : SigLeg, sigLegLe a b = true ∨ sigLegLe b a = true :=
    fun a b => natLexLe_total _ _
  have htrans : ∀ {a b c : SigLeg}, sigLegLe a b = true → sigLegLe b c = true →
      sigLegLe a c = true := fun hab hbc => natLexLe_trans hab hbc
  have hsorteq : insSort sigLegLe legs = insSort sigLegLe legs' := by
    apply sorted_perm_eq sigLegLe
    · exact (insSort_perm _ legs).trans (hperm.trans (insSort_perm _ legs').symm)
    · exact insSort_sorted _ htot htrans legs
    · exact insSort_sorted _ htot htrans legs'
    · intro a ha b hb h1 h2
      exact hinj a ((insSort_perm _ legs).mem_iff.mp ha) b ((insSort_perm _ legs).mem_iff.mp hb)
        (natLexLe_antisymm h1 h2)
  cases legs with
  | nil =>
    have : legs' = [] := List.Perm.nil_eq hperm |>.symm
    subst this; rfl
  | cons x t =>
    cases legs' with
    | nil => exact absurd hperm.length_eq (by simp)
    | cons y u =>
      show d _ = d _
      unfold signature_string
      rw [hsorteq]

/-- Witness for C4: a stock leg and an option leg have distinct sort
keys, and swapping them leaves the signature unchanged. -/
theorem C4_witness :
    generate_position_signature strId [stockLegA, optLegP] "AAPL" "h1" =
      generate_position_signature strId [optLegP, stockLegA] "AAPL" "h1" :=
  C4_signature_perm_invariance strId [stockLegA, optLegP] [optLegP, stockLegA] "AAPL" "h1"
    (by decide) (by decide)

/-- Structurally equal legs have the same sort key. -/
theorem sigSortKey_congr (a b : SigLeg) (h : sigStructEq a b) : sigSortKey a = sigSortKey b := by
  obtain ⟨h1, h2, h3, h4, h5⟩ := h
  unfold sigSortKey
  rw [h1, h2, h4, h5]

/-- Drift-equivalent legs render to the same text. -/
theorem legRender_congr (a b : SigLeg) (h : sigDriftEquiv a b) : legRender a = legRender b := by
  obtain ⟨⟨h1, h2, h3, h4, h5⟩, hq⟩ := h
  unfold legRender
  rw [h1, h2, h3, h4, h5]
  by_cases hopt : b.asset_type = "option"
  · rw [if_pos hopt, if_pos hopt]
  · rw [if_neg hopt, if_neg hopt]
    rcases hq with hq | hq
    · exact absurd (h1 ▸ hq) hopt
    · rw [hq]

/-- Insertion is congruent for pointwise related lists when the
relation determines the comparison. -/
theorem insertLe_congr {α : Type} (le : α → α → Bool) (R : α → α → Prop)
    (hcomp : ∀ a b c d, R a b → R c d → le a c = le b d) :
    ∀ {x y : α} {l l' : List α}, R x y → List.Forall₂ R l l' →
      List.Forall₂ R (insertLe le x l) (insertLe le y l') := by
  intro x y l l' hxy h
  induction h with
  | nil => exact List.Forall₂.cons hxy List.Forall₂.nil
  | @cons a b s t hab htail ih =>
    by_cases hc : le x a = true
    · have hd : le y b = true := (hcomp x y a b hxy hab) ▸ hc
      simp only [insertLe, hc, hd, if_true]
      exact List.Forall₂.cons hxy (List.Forall₂.cons hab htail)
    · have hd : ¬ le y b = true := fun h' => hc ((hcomp x y a b hxy hab) ▸ h')
      simp only [insertLe, hc, hd, if_false]
      exact List.Forall₂.cons hab ih

/-- Insertion sort is congruent for pointwise related lists when the
relation determines the comparison. -/
theorem insSort_congr {α : Type} (le : α → α → Bool) (R : α → α → Prop)
    (hcomp : ∀ a b c d, R a b → R c d → le a c = le b d) :
    ∀ {l l' : List α}, List.Forall₂ R l l' →
      List.Forall₂ R (insSort le l) (insSort le l') := by
  intro l l' h
  induction h with
  | nil => exact List.Forall₂.nil
  | cons hab htail ih => exact insertLe_congr le R hcomp hab ih

/-- Mapping a function that the relation makes constant over pointwise
related lists gives equal lists. -/
theorem map_eq_of_forall₂ {α β : Type} (f : α → β) (R : α → α → Prop)
    (hf : ∀ a b, R a b → f a = f b) :
    ∀ {l l' : List α}, List.Forall₂ R l l' → l.map f = l'.map f := by
  intro l l' h
  induction h with
  | nil => rfl
  | cons hab htail ih => simp [hf _ _ hab, ih]

/-- Changing the strike of an option leg to a different string changes
its rendered text. -/
theorem legRender_strike_ne (x : SigLeg) (s : String) (hopt : x.asset_type = "option")
    (hne : s ≠ x.strike) : legRender { x with strike := s } ≠ legRender x := by
  intro h
  apply hne
  simp only [legRender, hopt, if_pos] at h
  simp only [List.append_assoc] at h
  have h1 := List.append_cancel_left h
  have h2 := List.append_cancel_left h1
  have h3 := List.append_cancel_left h2
  have h4 := List.append_cancel_left h3
  have h5 := List.append_cancel_left h4
  have h6 := List.append_cancel_left h5
  have h7 := List.append_cancel_left h6
  have h8 := List.append_cancel_right h7
  exact String.ext h8

/-- Changing the expiration of an option leg to a different string
changes its rendered text. -/
theorem legRender_expiration_ne (x : SigLeg) (s : String) (hopt : x.asset_type = "option")
    (hne : s ≠ x.expiration) : legRender { x with expiration := s } ≠ legRender x := by
  intro h
  apply hne
  simp only [legRender, hopt, if_pos] at h
  simp only [List.append_assoc] at h
  have h1 := List.append_cancel_left h
  have h2 := List.append_cancel_left h1
  have h3 := List.append_cancel_left h2
  have h4 := List.append_cancel_left h3
  have h5 := List.append_cancel_left h4
  have h6 := List.append_cancel_left h5
  have h7 := List.append_cancel_left h6
  have h8 := List.append_cancel_left h7
  have h9 := List.append_cancel_left h8
  exact String.ext h9

/-- A separator occurring in neither prefix splits an equation of
separated concatenations. -/
theorem sepFree_append_inj {α : Type} (sep : α) :
    ∀ (xs ys r r' : List α), sep ∉ xs → sep ∉ ys →
      xs ++ sep :: r = ys ++ sep :: r' → xs = ys ∧ r = r'
  | [], [], r, r', _, _, h => ⟨rfl, by simpa using h⟩
  | [], y :: yt, r, r', _, hy, h => by
    simp only [List.nil_append, List.cons_append, List.cons.injEq] at h
    exact absurd (h.1 ▸ List.mem_cons_self y yt) hy
  | x :: xt, [], r, r', hx, _, h => by
    simp only [List.nil_append, List.cons_append, List.cons.injEq] at h
    exact absurd (h.1.symm ▸ List.mem_cons_self x xt) hx
  | x :: xt, y :: yt, r, r', hx, hy, h => by
    simp only [List.cons_append, List.cons.injEq] at h
    obtain ⟨hxy, ht⟩ := h
    have := sepFree_append_inj sep xt yt r r'
      (fun hm => hx (List.mem_cons_of_mem x hm)) (fun hm => hy (List.mem_cons_of_mem y hm)) ht
    exact ⟨by rw [hxy, this.1], this.2⟩

/-- Joining equal-length lists of separator-free parts is injective. -/
theorem joinSep_inj (sep : Char) :
    ∀ (ps qs : List (List Char)), ps.length = qs.length →
      (∀ p ∈ ps, sep ∉ p) → (∀ q ∈ qs, sep ∉ q) →
      joinSep sep ps = joinSep sep qs → ps = qs
  | [], [], _, _, _, _ => rfl
  | [], _ :: _, hlen, _, _, _ => by simp at hlen
  | _ :: _, [], hlen, _, _, _ => by simp at hlen
  | [p], [q], _, _, _, h => by rw [show p = q from h]
  | [p], q :: q2 :: qt, hlen, _, _, _ => by simp at hlen
  | p :: p2 :: pt, [q], hlen, _, _, _ => by simp at hlen
  | p :: p2 :: pt, q :: q2 :: qt, hlen, hp, hq, h => by
    have h' : p ++ sep :: joinSep sep (p2 :: pt) = q ++ sep :: joinSep sep (q2 :: qt) := h
    have hsplit := sepFree_append_inj sep p q _ _
      (hp p (List.mem_cons_self p _)) (hq q (List.mem_cons_self q _)) h'
    have hrest := joinSep_inj sep (p2 :: pt) (q2 :: qt) (by simpa using hlen)
      (fun a ha => hp a (List.mem_cons_of_mem p ha))
      (fun a ha => hq a (List.mem_cons_of_mem q ha)) hsplit.2
    rw [hsplit.1, hrest]

/-- The quantity bucket label never contains the bar separator. -/
theorem qty_range_noBar (q : ℚ) : '|' ∉ (qty_range q).data := by
  unfold qty_range
  split
  · decide
  · split
    · decide
    · split
      · decide
      · decide

/-- The rendered text of a clean leg never contains the bar
separator. -/
theorem legRender_noBar (l : SigLeg) (h : sigLegClean l) : '|' ∉ legRender l := by
  obtain ⟨h1, h2, h3, h4, h5⟩ := h
  have d1 : '|' ∉ "leg:".data := by decide
  have d2 : '|' ∉ ":".data := by decide
  have d3 : '|' ∉ "qty_range:".data := by decide
  unfold legRender
  by_cases hopt : l.asset_type = "option"
  · rw [if_pos hopt]
    simp [List.mem_append, h1, h2, h3, h4, h5, d1, d2]
  · rw [if_neg hopt]
    simp [List.mem_append, h1, h2, d1, d2, d3, qty_range_noBar]

/-- Two clean leg lists whose rendered-line multiset differs (witnessed
by a line counted differently) compose to different pre-hash texts. -/
theorem signature_string_ne (legs₁ legs₂ : List SigLeg) (sym ah : String)
    (hlen : legs₁.length = legs₂.length)
    (hc1 : ∀ l ∈ legs₁, sigLegClean l) (hc2 : ∀ l ∈ legs₂, sigLegClean l)
    (hsym : '|' ∉ sym.data) (hah : '|' ∉ ah.data)
    (c : List Char)
    (hcount : (legs₁.map legRender).count c ≠ (legs₂.map legRender).count c) :
    signature_string legs₁ sym ah ≠ signature_string legs₂ sym ah := by
  intro h
  unfold signature_string at h
  have hhs : '|' ∉ ("symbol:".data ++ sym.data) := by
    intro hm
    rcases List.mem_append.mp hm with hm | hm
    · exact absurd hm (by decide)
    · exact hsym hm
  have hha : '|' ∉ ("account:".data ++ ah.data) := by
    intro hm
    rcases List.mem_append.mp hm with hm | hm
    · exact absurd hm (by decide)
    · exact hah hm
  have hnb1 : ∀ p ∈ ("symbol:".data ++ sym.data) :: ("account:".data ++ ah.data) ::
      (insSort sigLegLe legs₁).map legRender, '|' ∉ p := by
    intro p hp
    rcases List.mem_cons.mp hp with rfl | hp
    · exact hhs
    rcases List.mem_cons.mp hp with rfl | hp
    · exact hha
    obtain ⟨l, hl, rfl⟩ := List.mem_map.mp hp
    exact legRender_noBar l (hc1 l ((insSort_perm sigLegLe legs₁).mem_iff.mp hl))
  have hnb2 : ∀ p ∈ ("symbol:".data ++ sym.data) :: ("account:".data ++ ah.data) ::
      (insSort sigLegLe legs₂).map legRender, '|' ∉ p := by
    intro p hp
    rcases List.mem_cons.mp hp with rfl | hp
    · exact hhs
    rcases List.mem_cons.mp hp with rfl | hp
    · exact hha
    obtain ⟨l, hl, rfl⟩ := List.mem_map.mp hp
    exact legRender_noBar l (hc2 l ((insSort_perm sigLegLe legs₂).mem_iff.mp hl))
  have hparts := joinSep_inj '|' _ _
    (by simp [(insSort_perm sigLegLe legs₁).length_eq, (insSort_perm sigLegLe legs₂).length_eq, hlen])
    hnb1 hnb2 h
  have hmap : (insSort sigLegLe legs₁).map legRender = (insSort sigLegLe legs₂).map legRender := by
    injection hparts with h1 hparts1
    injection hparts1 with h2 hparts2
  apply hcount
  have p1 := ((insSort_perm sigLegLe legs₁).map legRender).countP_eq (fun p => p == c)
  have p2 := ((insSort_perm sigLegLe legs₂).map legRender).countP_eq (fun p => p == c)
  simp only [List.count]
  rw [← p1, ← p2, hmap]

/-- Replacing one leg in a clean leg list with a clean leg that renders
differently changes the signature, for any injective digest. -/
theorem gps_ne_of_render_modified (d : List Char → String) (hd : Function.Injective d)
    (l₁ l₂ : List SigLeg) (x x' : SigLeg) (sym ah : String)
    (hr : legRender x' ≠ legRender x)
    (hc : ∀ l ∈ l₁ ++ x :: l₂, sigLegClean l) (hc' : sigLegClean x')
    (hsym : '|' ∉ sym.data) (hah : '|' ∉ ah.data) :
    generate_position_signature d (l₁ ++ x :: l₂) sym ah ≠
      generate_position_signature d (l₁ ++ x' :: l₂) sym ah := by
  intro h
  have hne1 : (l₁ ++ x :: l₂).isEmpty = false := by cases l₁ <;> rfl
  have hne2 : (l₁ ++ x' :: l₂).isEmpty = false := by cases l₁ <;> rfl
  rw [generate_position_signature, generate_position_signature, hne1, hne2] at h
  simp only [Bool.false_eq_true, if_false] at h
  have hstr := hd h
  have hc2 : ∀ l ∈ l₁ ++ x' :: l₂, sigLegClean l := by
    intro l hl
    rcases List.mem_append.mp hl with hl | hl
    · exact hc l (List.mem_append_left _ hl)
    rcases List.mem_cons.mp hl with rfl | hl
    · exact hc'
    · exact hc l (List.mem_append_right _ (List.mem_cons_of_mem x hl))
  refine signature_string_ne (l₁ ++ x :: l₂) (l₁ ++ x' :: l₂) sym ah (by simp) hc hc2
    hsym hah (legRender x) ?_ hstr
  simp only [List.map_append, List.count_append, List.map_cons, List.count_cons]
  have hbe : (legRender x == legRender x) = true := by simp
  have hbe' : (legRender x' == legRender x) = false := by simp [hr]
  rw [hbe, hbe']
  simp

/-- The identity digest is injective. -/
theorem strId_injective : Function.Injective strId := by
  intro a b h
  exact congrArg String.data h

/-- C5 counterexample: changing only the quantity of a stock leg (5
shares to 50 shares) crosses a quantity bucket and changes the
signature (identity digest), so price-and-quantity invariance fails as
stated. -/
theorem C5_counterexample :
    List.Forall₂ sigStructEq [stockLegA] [stockLegB] ∧
    generate_position_signature strId [stockLegA] "AAPL" "h1" ≠
      generate_position_signature strId [stockLegB] "AAPL" "h1" := by
  refine ⟨List.Forall₂.cons ⟨rfl, rfl, rfl, rfl, rfl⟩ List.Forall₂.nil, by decide⟩

/-- C5 amended: (1) modifications that keep every structural field and
every stock leg's quantity bucket leave the signature unchanged for any
digest - in particular any change of average_price or current_value,
and any quantity change on option legs; (2) changing the strike of an
option leg changes the signature for any injective digest, on clean
inputs; (3) likewise for the expiration. -/
theorem C5_price_invariance_and_structure_sensitivity :
    (∀ (d : List Char → String) (legs legs' : List SigLeg) (sym ah : String),
      List.Forall₂ sigDriftEquiv legs legs' →
      generate_position_signature d legs sym ah = generate_position_signature d legs' sym ah)
    ∧ (∀ (d : List Char → String), Function.Injective d →
      ∀ (l₁ l₂ : List SigLeg) (x : SigLeg) (s : String) (sym ah : String),
      x.asset_type = "option" → s ≠ x.strike →
      (∀ l ∈ l₁ ++ x :: l₂, sigLegClean l) → '|' ∉ s.data →
      '|' ∉ sym.data → '|' ∉ ah.data →
      generate_position_signature d (l₁ ++ x :: l₂) sym ah ≠
        generate_position_signature d (l₁ ++ { x with strike := s } :: l₂) sym ah)
    ∧ (∀ (d : List Char → String), Function.Injective d →
      ∀ (l₁ l₂ : List SigLeg) (x : SigLeg) (s : String) (sym ah : String),
      x.asset_type = "option" → s ≠ x.expiration →
      (∀ l ∈ l₁ ++ x :: l₂, sigLegClean l) → '|' ∉ s.data →
      '|' ∉ sym.data → '|' ∉ ah.data →
      generate_position_signature d (l₁ ++ x :: l₂) sym ah ≠
        generate_position_signature d (l₁ ++ { x with expiration := s } :: l₂) sym ah) := by
  refine ⟨?_, ?_, ?_⟩
  · intro d legs legs' sym ah h
    have hR : List.Forall₂
        (fun a b => sigSortKey a = sigSortKey b ∧ legRender a = legRender b) legs legs' :=
      List.Forall₂.imp (fun a b hab => ⟨sigSortKey_congr a b hab.1, legRender_congr a b hab⟩) h
    have hmap : (insSort sigLegLe legs).map legRender = (insSort sigLegLe legs').map legRender :=
      map_eq_of_forall₂ legRender _ (fun a b hab => hab.2)
        (insSort_congr sigLegLe _
          (fun a b c d hab hcd => by unfold sigLegLe; rw [hab.1, hcd.1]) hR)
    cases legs with
    | nil => cases h; rfl
    | cons a t =>
      cases legs' with
      | nil => cases h
      | cons b u =>
        show d _ = d _
        unfold signature_string
        rw [hmap]
  · intro d hd l₁ l₂ x s sym ah hopt hne hclean hs hsym hah
    have hcx := hclean x (List.mem_append_right _ (List.mem_cons_self x l₂))
    exact gps_ne_of_render_modified d hd l₁ l₂ x _ sym ah
      (legRender_strike_ne x s hopt hne) hclean
      ⟨hcx.1, hcx.2.1, hcx.2.2.1, hs, hcx.2.2.2.2⟩ hsym hah
  · intro d hd l₁ l₂ x s sym ah hopt hne hclean hs hsym hah
    have hcx := hclean x (List.mem_append_right _ (List.mem_cons_self x l₂))
    exact gps_ne_of_render_modified d hd l₁ l₂ x _ sym ah
      (legRender_expiration_ne x s hopt hne) hclean
      ⟨hcx.1, hcx.2.1, hcx.2.2.1, hcx.2.2.2.1, hs⟩ hsym hah

/-- Witness for C5: a concrete option leg keeps its signature when
average_price and quantity drift, and changes it when the strike or
the expiration changes. -/
theorem C5_witness :
    generate_position_signature strId [optLegP] "AAPL" "h1" =
      generate_position_signature strId [{ optLegP with average_price := 6, quantity := -2 }]
        "AAPL" "h1"
    ∧ generate_position_signature strId [optLegP] "AAPL" "h1" ≠
      generate_position_signature strId [{ optLegP with strike := "210.0" }] "AAPL" "h1"
    ∧ generate_position_signature strId [optLegP] "AAPL" "h1" ≠
      generate_position_signature strId [{ optLegP with expiration := "2026-01-16" }]
        "AAPL" "h1" := by
  refine ⟨?_, ?_, ?_⟩
  · exact C5_price_invariance_and_structure_sensitivity.1 strId [optLegP] _ "AAPL" "h1"
      (List.Forall₂.cons ⟨⟨rfl, rfl, rfl, rfl, rfl⟩, Or.inl rfl⟩ List.Forall₂.nil)
  · exact C5_price_invariance_and_structure_sensitivity.2.1 strId strId_injective
      [] [] optLegP "210.0" "AAPL" "h1" rfl (by decide) (by decide) (by decide)
      (by decide) (by decide)
  · exact C5_price_invariance_and_structure_sensitivity.2.2 strId strId_injective
      [] [] optLegP "2026-01-16" "AAPL" "h1" rfl (by decide) (by decide) (by decide)
      (by decide) (by decide)

/-- Total number of legs placed into groups is preserved through the
covered-call phase, the bucket stays count-contained in the option
pool, and options outside the original bucket are untouched. -/
theorem ccPhase_spec (u : String) :
    ∀ (snap rs ro eo : List Leg) (det : List StrategyGroup)
      (rs' ro' eo' : List Leg) (det' : List StrategyGroup),
      ccPhase u snap rs ro eo det = (rs', ro', eo', det') →
      (∀ v, snap.count v ≤ rs.count v) →
      (∀ v, eo.count v ≤ ro.count v) →
      legsCount det' + rs'.length + ro'.length = legsCount det + rs.length + ro.length
      ∧ (∀ v, eo'.count v ≤ ro'.count v)
      ∧ (∀ v, v ∉ eo → ro'.count v = ro.count v ∧ v ∉ eo') := by
  intro snap
  induction snap with
  | nil =>
    intro rs ro eo det rs' ro' eo' det' heq hsnap h2
    cases heq
    exact ⟨rfl, h2, fun v hv => ⟨rfl, hv⟩⟩
  | cons stock rest ih =>
    intro rs ro eo det rs' ro' eo' det' heq hsnap h2
    cases hfind : eo.find? (fun opt => coveredCallMatch stock opt) with
    | none =>
      have hstep : ccPhase u (stock :: rest) rs ro eo det = ccPhase u rest rs ro eo det := by
        simp only [ccPhase]
        rw [hfind]
      rw [hstep] at heq
      have hsnap' : ∀ v, rest.count v ≤ rs.count v := by
        intro v
        have h1 := hsnap v
        by_cases hv : v = stock
        · subst hv
          rw [List.count_cons_self] at h1
          omega
        · rw [List.count_cons_of_ne hv] at h1
          omega
      exact ih rs ro eo det rs' ro' eo' det' heq hsnap' h2
    | some opt =>
      have hstep : ccPhase u (stock :: rest) rs ro eo det =
          ccPhase u rest (rs.erase stock) (ro.erase opt) (eo.erase opt)
            (det ++ [⟨"covered_call", [stock, opt], u⟩]) := by
        simp only [ccPhase]
        rw [hfind]
      rw [hstep] at heq
      have hopteo : opt ∈ eo := List.mem_of_find?_eq_some hfind
      have hoptro : opt ∈ ro := by
        have h1 := h2 opt
        have h3 : 0 < eo.count opt := List.count_pos_iff.mpr hopteo
        exact List.count_pos_iff.mp (by omega)
      have hstockrs : stock ∈ rs := by
        have h1 := hsnap stock
        rw [List.count_cons_self] at h1
        exact List.count_pos_iff.mp (by omega)
      have hsnap' : ∀ v, rest.count v ≤ (rs.erase stock).count v := by
        intro v
        have h1 := hsnap v
        by_cases hv : v = stock
        · subst hv
          rw [List.count_cons_self] at h1
          rw [List.count_erase_self]
          omega
        · rw [List.count_cons_of_ne hv] at h1
          rw [List.count_erase_of_ne hv]
          omega
      have h2' : ∀ v, (eo.erase opt).count v ≤ (ro.erase opt).count v := by
        intro v
        by_cases hv : v = opt
        · subst hv
          rw [List.count_erase_self, List.count_erase_self]
          have := h2 v
          omega
        · rw [List.count_erase_of_ne hv, List.count_erase_of_ne hv]
          exact h2 v
      obtain ⟨hsum, hsc, hpres⟩ := ih _ _ _ _ _ _ _ _ heq hsnap' h2'
      refine ⟨?_, hsc, ?_⟩
      · rw [hsum]
        have e1 : legsCount (det ++ [(⟨"covered_call", [stock, opt], u⟩ : StrategyGroup)]) =
            legsCount det + 2 := by simp [legsCount]
        have e2 := List.length_erase_of_mem hstockrs
        have e3 := List.length_erase_of_mem hoptro
        have e4 := List.length_pos_of_mem hstockrs
        have e5 := List.length_pos_of_mem hoptro
        rw [e1, e2, e3]
        omega
      · intro v hveo
        have hvopt : v ≠ opt := fun hv => hveo (hv ▸ hopteo)
        have hveo' : v ∉ eo.erase opt := fun hm => hveo (List.mem_of_mem_erase hm)
        obtain ⟨hr, he⟩ := hpres v hveo'
        refine ⟨?_, he⟩
        rw [hr, List.count_erase_of_ne hvopt]

/-- A successful box spread detection conserves the total leg count
and leaves options outside the bucket untouched. -/
theorem boxCheck_spec (u : String) (eo ro : List Leg) (det : List StrategyGroup)
    (ro' : List Leg) (det' : List StrategyGroup)
    (h : boxCheck u eo ro det = some (ro', det'))
    (h2 : ∀ v, eo.count v ≤ ro.count v) :
    legsCount det' + ro'.length = legsCount det + ro.length
    ∧ (∀ v, v ∉ eo → ro'.count v = ro.count v) := by
  simp only [boxCheck] at h
  split at h
  · split at h
    · split at h
      · split at h
        · rename_i h4 hlen o1 o2 o3 o4 cl cs pl ps hcl hcs hpl hps hcond
          injection h with h
          injection h with hro hdet
          subst hro
          subst hdet
          have mclf : cl ∈ eo.filter (fun o => o.option_type == some "call") :=
            List.mem_of_find?_eq_some hcl
          have mcsf : cs ∈ eo.filter (fun o => o.option_type == some "call") :=
            List.mem_of_find?_eq_some hcs
          have mplf : pl ∈ eo.filter (fun o => o.option_type == some "put") :=
            List.mem_of_find?_eq_some hpl
          have mpsf : ps ∈ eo.filter (fun o => o.option_type == some "put") :=
            List.mem_of_find?_eq_some hps
          have mcleo : cl ∈ eo := List.mem_of_mem_filter mclf
          have mcseo : cs ∈ eo := List.mem_of_mem_filter mcsf
          have mpleo : pl ∈ eo := List.mem_of_mem_filter mplf
          have mpseo : ps ∈ eo := List.mem_of_mem_filter mpsf
          have bclt := List.of_mem_filter mclf
          have bcst := List.of_mem_filter mcsf
          have bplt := List.of_mem_filter mplf
          have bpst := List.of_mem_filter mpsf
          have hclt : cl.option_type = some "call" := eq_of_beq bclt
          have hcst : cs.option_type = some "call" := eq_of_beq bcst
          have hplt : pl.option_type = some "put" := eq_of_beq bplt
          have hpst : ps.option_type = some "put" := eq_of_beq bpst
          have dclq := List.find?_some hcl
          have dcsq := List.find?_some hcs
          have dplq := List.find?_some hpl
          have dpsq := List.find?_some hps
          have hclq : (0 : ℚ) < cl.quantity := of_decide_eq_true dclq
          have hcsq : cs.quantity < 0 := of_decide_eq_true dcsq
          have hplq : (0 : ℚ) < pl.quantity := of_decide_eq_true dplq
          have hpsq : ps.quantity < 0 := of_decide_eq_true dpsq
          have ne_cs_cl : cs ≠ cl := fun he =>
            absurd (he ▸ hcsq) (not_lt.mpr (le_of_lt hclq))
          have ne_pl_cl : pl ≠ cl := fun he => by
            rw [he, hclt] at hplt
            exact absurd hplt (by decide)
          have ne_pl_cs : pl ≠ cs := fun he => by
            rw [he, hcst] at hplt
            exact absurd hplt (by decide)
          have ne_ps_cl : ps ≠ cl := fun he => by
            rw [he, hclt] at hpst
            exact absurd hpst (by decide)
          have ne_ps_cs : ps ≠ cs := fun he => by
            rw [he, hcst] at hpst
            exact absurd hpst (by decide)
          have ne_ps_pl : ps ≠ pl := fun he =>
            absurd (he ▸ hpsq) (not_lt.mpr (le_of_lt hplq))
          have m1 : cl ∈ ro :=
            List.count_pos_iff.mp (lt_of_lt_of_le (List.count_pos_iff.mpr mcleo) (h2 cl))
          have m2 : cs ∈ ro.erase cl := (List.mem_erase_of_ne ne_cs_cl).mpr
            (List.count_pos_iff.mp (lt_of_lt_of_le (List.count_pos_iff.mpr mcseo) (h2 cs)))
          have m3 : pl ∈ (ro.erase cl).erase cs := (List.mem_erase_of_ne ne_pl_cs).mpr
            ((List.mem_erase_of_ne ne_pl_cl).mpr
              (List.count_pos_iff.mp (lt_of_lt_of_le (List.count_pos_iff.mpr mpleo) (h2 pl))))
          have m4 : ps ∈ ((ro.erase cl).erase cs).erase pl := (List.mem_erase_of_ne ne_ps_pl).mpr
            ((List.mem_erase_of_ne ne_ps_cs).mpr
              ((List.mem_erase_of_ne ne_ps_cl).mpr
                (List.count_pos_iff.mp
                  (lt_of_lt_of_le (List.count_pos_iff.mpr mpseo) (h2 ps)))))
          constructor
          · have e0 : legsCount
                (det ++ [(⟨"box_spread", [cl, cs, pl, ps], u⟩ : StrategyGroup)]) =
                legsCount det + 4 := by simp [legsCount]
            have l1 := List.length_erase_of_mem m1
            have l2 := List.length_erase_of_mem m2
            have l3 := List.length_erase_of_mem m3
            have l4 := List.length_erase_of_mem m4
            have p1 := List.length_pos_of_mem m1
            have p2 := List.length_pos_of_mem m2
            have p3 := List.length_pos_of_mem m3
            have p4 := List.length_pos_of_mem m4
            rw [e0, l4, l3, l2, l1]
            omega
          · intro v hv
            have nv1 : v ≠ cl := fun he => hv (he ▸ mcleo)
            have nv2 : v ≠ cs := fun he => hv (he ▸ mcseo)
            have nv3 : v ≠ pl := fun he => hv (he ▸ mpleo)
            have nv4 : v ≠ ps := fun he => hv (he ▸ mpseo)
            rw [List.count_erase_of_ne nv4, List.count_erase_of_ne nv3,
              List.count_erase_of_ne nv2, List.count_erase_of_ne nv1]
        · cases h
      · cases h
    · cases h
  · cases h

/-- Removing a two-leg spread from the pool while emitting its group
conserves the total leg count and leaves other values untouched. -/
theorem vert_pair_step (u ty : String) (ro : List Leg) (det : List StrategyGroup) (x y : Leg)
    (hx : x ∈ ro) (hy : y ∈ ro) (hxy : x ≠ y) :
    legsCount (det ++ [(⟨ty, [x, y], u⟩ : StrategyGroup)]) + ((ro.erase x).erase y).length
      = legsCount det + ro.length
    ∧ (∀ v, v ≠ x → v ≠ y → ((ro.erase x).erase y).count v = ro.count v) := by
  constructor
  · have e0 : legsCount (det ++ [(⟨ty, [x, y], u⟩ : StrategyGroup)]) = legsCount det + 2 := by
      simp [legsCount]
    have m2 : y ∈ ro.erase x := (List.mem_erase_of_ne (Ne.symm hxy)).mpr hy
    have l1 := List.length_erase_of_mem hx
    have l2 := List.length_erase_of_mem m2
    have p1 := List.length_pos_of_mem hx
    have p2 := List.length_pos_of_mem m2
    rw [e0, l2, l1]
    omega
  · intro v h1 h2
    rw [List.count_erase_of_ne h2, List.count_erase_of_ne h1]

/-- The put vertical check conserves the total leg count and leaves
options outside the bucket untouched. -/
theorem vertPuts_spec (u : String) (eo ro : List Leg) (det : List StrategyGroup)
    (ro' : List Leg) (det' : List StrategyGroup)
    (h : vertPuts u eo ro det = (ro', det')) :
    legsCount det' + ro'.length = legsCount det + ro.length
    ∧ (∀ v, v ∉ eo → ro'.count v = ro.count v) := by
  simp only [vertPuts] at h
  split at h
  case _ a b heq =>
    have maf : a ∈ eo.filter (fun o => o.option_type == some "put" && ro.contains o) := by
      rw [heq]
      exact List.mem_cons_self a [b]
    have mbf : b ∈ eo.filter (fun o => o.option_type == some "put" && ro.contains o) := by
      rw [heq]
      exact List.mem_cons_of_mem a (List.mem_cons_self b [])
    have pa2 : a.option_type = some "put" ∧ a ∈ ro := by
      have := List.of_mem_filter maf
      simpa using this
    have pb2 : b.option_type = some "put" ∧ b ∈ ro := by
      have := List.of_mem_filter mbf
      simpa using this
    have maeo : a ∈ eo := List.mem_of_mem_filter maf
    have mbeo : b ∈ eo := List.mem_of_mem_filter mbf
    by_cases hc : strikeOf a < strikeOf b
    · simp only [if_pos hc] at h
      split at h
      case _ hcond =>
        cases h
        have hcond2 : b.quantity < 0 ∧ (0 : ℚ) < a.quantity := by simpa using hcond
        have hne : b ≠ a := fun he =>
          absurd (he ▸ hcond2.1) (not_lt.mpr (le_of_lt hcond2.2))
        obtain ⟨s1, s2⟩ := vert_pair_step u "vertical_spread" ro det b a pb2.2 pa2.2 hne
        exact ⟨s1, fun v hv => s2 v (fun he => hv (he ▸ mbeo)) (fun he => hv (he ▸ maeo))⟩
      case _ =>
        cases h
        exact ⟨rfl, fun v hv => rfl⟩
    · simp only [if_neg hc] at h
      split at h
      case _ hcond =>
        cases h
        have hcond2 : a.quantity < 0 ∧ (0 : ℚ) < b.quantity := by simpa using hcond
        have hne : a ≠ b := fun he =>
          absurd (he ▸ hcond2.1) (not_lt.mpr (le_of_lt hcond2.2))
        obtain ⟨s1, s2⟩ := vert_pair_step u "vertical_spread" ro det a b pa2.2 pb2.2 hne
        exact ⟨s1, fun v hv => s2 v (fun he => hv (he ▸ maeo)) (fun he => hv (he ▸ mbeo))⟩
      case _ =>
        cases h
        exact ⟨rfl, fun v hv => rfl⟩
  case _ =>
    cases h
    exact ⟨rfl, fun v hv => rfl⟩

/-- The call vertical check conserves the total leg count and leaves
options outside the bucket untouched. -/
theorem vertCalls_spec (u : String) (eo ro : List Leg) (det : List StrategyGroup)
    (ro' : List Leg) (det' : List StrategyGroup)
    (h : vertCalls u eo ro det = (ro', det')) :
    legsCount det' + ro'.length = legsCount det + ro.length
    ∧ (∀ v, v ∉ eo → ro'.count v = ro.count v) := by
  simp only [vertCalls] at h
  split at h
  case _ a b heq =>
    have maf : a ∈ eo.filter (fun o => o.option_type == some "call" && ro.contains o) := by
      rw [heq]
      exact List.mem_cons_self a [b]
    have mbf : b ∈ eo.filter (fun o => o.option_type == some "call" && ro.contains o) := by
      rw [heq]
      exact List.mem_cons_of_mem a (List.mem_cons_self b [])
    have pa2 : a.option_type = some "call" ∧ a ∈ ro := by
      have := List.of_mem_filter maf
      simpa using this
    have pb2 : b.option_type = some "call" ∧ b ∈ ro := by
      have := List.of_mem_filter mbf
      simpa using this
    have maeo : a ∈ eo := List.mem_of_mem_filter maf
    have mbeo : b ∈ eo := List.mem_of_mem_filter mbf
    by_cases hc : strikeOf b < strikeOf a
    · simp only [if_pos hc] at h
      split at h
      case _ hcond =>
        cases h
        have hcond2 : (0 : ℚ) < b.quantity ∧ a.quantity < 0 := by simpa using hcond
        have hne : b ≠ a := fun he =>
          absurd (he ▸ hcond2.1) (not_lt.mpr (le_of_lt hcond2.2))
        obtain ⟨s1, s2⟩ := vert_pair_step u "vertical_spread" ro det b a pb2.2 pa2.2 hne
        exact ⟨s1, fun v hv => s2 v (fun he => hv (he ▸ mbeo)) (fun he => hv (he ▸ maeo))⟩
      case _ =>
        cases h
        exact ⟨rfl, fun v hv => rfl⟩
    · simp only [if_neg hc] at h
      split at h
      case _ hcond =>
        cases h
        have hcond2 : (0 : ℚ) < a.quantity ∧ b.quantity < 0 := by simpa using hcond
        have hne : a ≠ b := fun he =>
          absurd (he ▸ hcond2.2) (not_lt.mpr (le_of_lt hcond2.1))
        obtain ⟨s1, s2⟩ := vert_pair_step u "vertical_spread" ro det a b pa2.2 pb2.2 hne
        exact ⟨s1, fun v hv => s2 v (fun he => hv (he ▸ maeo)) (fun he => hv (he ▸ mbeo))⟩
      case _ =>
        cases h
        exact ⟨rfl, fun v hv => rfl⟩
  case _ =>
    cases h
    exact ⟨rfl, fun v hv => rfl⟩

/-- One expiration bucket conserves the total leg count and touches
only option values belonging to the bucket. -/
theorem processBucket_spec (u : String) (st : DetectState) (cell : List Leg)
    (hcell : ∀ v, cell.count v ≤ st.remaining_options.count v) :
    (legsCount (processBucket u st cell).detected +
        (processBucket u st cell).remaining_stocks.length +
        (processBucket u st cell).remaining_options.length
      = legsCount st.detected + st.remaining_stocks.length + st.remaining_options.length)
    ∧ (∀ v, v ∉ cell →
        (processBucket u st cell).remaining_options.count v =
          st.remaining_options.count v) := by
  rcases hcc : ccPhase u st.remaining_stocks st.remaining_stocks st.remaining_options cell
    st.detected with ⟨rs, ro, eo, det⟩
  obtain ⟨ccsum, ccsub, ccpres⟩ :=
    ccPhase_spec u _ _ _ _ _ rs ro eo det hcc (fun v => le_refl _) hcell
  cases hbox : boxCheck u eo ro det with
  | some pair =>
    rcases pair with ⟨ro2, det2⟩
    have hres : processBucket u st cell = ⟨rs, ro2, det2⟩ := by
      simp only [processBucket]
      rw [hcc, hbox]
    obtain ⟨bsum, bpres⟩ := boxCheck_spec u eo ro det ro2 det2 hbox ccsub
    rw [hres]
    constructor
    · show legsCount det2 + rs.length + ro2.length = _
      omega
    · intro v hv
      show ro2.count v = _
      obtain ⟨hro, hneo⟩ := ccpres v hv
      rw [bpres v hneo, hro]
  | none =>
    rcases hvp : vertPuts u eo ro det with ⟨ro1, det1⟩
    rcases hvc : vertCalls u eo ro1 det1 with ⟨ro2, det2⟩
    have hres : processBucket u st cell = ⟨rs, ro2, det2⟩ := by
      simp only [processBucket]
      rw [hcc, hbox, hvp, hvc]
    obtain ⟨psum, ppres⟩ := vertPuts_spec u eo ro det ro1 det1 hvp
    obtain ⟨csum, cpres⟩ := vertCalls_spec u eo ro1 det1 ro2 det2 hvc
    rw [hres]
    constructor
    · show legsCount det2 + rs.length + ro2.length = _
      omega
    · intro v hv
      show ro2.count v = _
      obtain ⟨hro, hneo⟩ := ccpres v hv
      rw [cpres v hneo, ppres v hneo, hro]

/-- Folding over pairwise value-disjoint buckets count-contained in the
option pool conserves the total leg count. -/
theorem foldBuckets_spec (u : String) :
    ∀ (cells : List (List Leg)) (st : DetectState),
      (∀ c ∈ cells, ∀ v, c.count v ≤ st.remaining_options.count v) →
      List.Pairwise (fun c₁ c₂ => ∀ v ∈ c₂, v ∉ c₁) cells →
      (legsCount (cells.foldl (processBucket u) st).detected +
          (cells.foldl (processBucket u) st).remaining_stocks.length +
          (cells.foldl (processBucket u) st).remaining_options.length
        = legsCount st.detected + st.remaining_stocks.length + st.remaining_options.length)
      ∧ (∀ v, (∀ c ∈ cells, v ∉ c) →
          (cells.foldl (processBucket u) st).remaining_options.count v =
            st.remaining_options.count v) := by
  intro cells
  induction cells with
  | nil =>
    intro st _ _
    exact ⟨rfl, fun v _ => rfl⟩
  | cons c cs ih =>
    intro st hsub hpw
    rw [List.foldl_cons]
    obtain ⟨bsum, bpres⟩ := processBucket_spec u st c (hsub c (List.mem_cons_self c cs))
    rcases List.pairwise_cons.mp hpw with ⟨hhead, htail⟩
    have hsub' : ∀ c' ∈ cs, ∀ v, c'.count v ≤ (processBucket u st c).remaining_options.count v := by
      intro c' hc' v
      rcases Nat.eq_zero_or_pos (c'.count v) with hz | hp
      · rw [hz]
        exact Nat.zero_le _
      · have hvmem : v ∈ c' := List.count_pos_iff.mp hp
        have hvnotc : v ∉ c := hhead c' hc' v hvmem
        rw [bpres v hvnotc]
        exact hsub c' (List.mem_cons_of_mem c hc') v
    obtain ⟨ssum, spres⟩ := ih (processBucket u st c) hsub' htail
    constructor
    · omega
    · intro v hv
      have h1 : v ∉ c := hv c (List.mem_cons_self c cs)
      have h2 : ∀ c' ∈ cs, v ∉ c' := fun c' hc' => hv c' (List.mem_cons_of_mem c hc')
      rw [spres v h2, bpres v h1]

/-- Elements of a first-occurrence deduplication come from the input
and avoid the accumulator. -/
theorem dedupFirstAux_sub {α : Type} [DecidableEq α] :
    ∀ (l seen : List α) (a : α), a ∈ dedupFirstAux seen l → a ∈ l ∧ a ∉ seen := by
  intro l
  induction l with
  | nil =>
    intro seen a h
    simp [dedupFirstAux] at h
  | cons x t ih =>
    intro seen a h
    by_cases hx : x ∈ seen
    · rw [dedupFirstAux, if_pos hx] at h
      obtain ⟨h1, h2⟩ := ih seen a h
      exact ⟨List.mem_cons_of_mem x h1, h2⟩
    · rw [dedupFirstAux, if_neg hx] at h
      rcases List.mem_cons.mp h with rfl | h
      · exact ⟨List.mem_cons_self _ _, hx⟩
      · obtain ⟨h1, h2⟩ := ih (x :: seen) a h
        exact ⟨List.mem_cons_of_mem x h1, fun hm => h2 (List.mem_cons_of_mem x hm)⟩

/-- Every input element outside the accumulator appears in the
first-occurrence deduplication. -/
theorem mem_dedupFirstAux {α : Type} [DecidableEq α] :
    ∀ (l seen : List α) (a : α), a ∈ l → a ∉ seen → a ∈ dedupFirstAux seen l := by
  intro l
  induction l with
  | nil =>
    intro seen a h
    cases h
  | cons x t ih =>
    intro seen a hal has
    by_cases hx : x ∈ seen
    · rw [dedupFirstAux, if_pos hx]
      rcases List.mem_cons.mp hal with rfl | h
      · exact absurd hx has
      · exact ih seen a h has
    · rw [dedupFirstAux, if_neg hx]
      rcases List.mem_cons.mp hal with rfl | h
      · exact List.mem_cons_self _ _
      · by_cases hax : a = x
        · subst hax
          exact List.mem_cons_self _ _
        · refine List.mem_cons_of_mem x (ih (x :: seen) a h ?_)
          intro hm
          rcases List.mem_cons.mp hm with h' | h'
          · exact hax h'
          · exact has h'

/-- First-occurrence deduplication has no duplicates. -/
theorem dedupFirstAux_nodup {α : Type} [DecidableEq α] :
    ∀ (l seen : List α), (dedupFirstAux seen l).Nodup := by
  intro l
  induction l with
  | nil =>
    intro seen
    simp [dedupFirstAux]
  | cons x t ih =>
    intro seen
    by_cases hx : x ∈ seen
    · rw [dedupFirstAux, if_pos hx]
      exact ih seen
    · rw [dedupFirstAux, if_neg hx]
      refine List.nodup_cons.mpr ⟨?_, ih (x :: seen)⟩
      intro hmem
      exact (dedupFirstAux_sub t (x :: seen) x hmem).2 (List.mem_cons_self x seen)

/-- The dict-key list has no duplicates. -/
theorem dedupFirst_nodup {α : Type} [DecidableEq α] (l : List α) : (dedupFirst l).Nodup :=
  dedupFirstAux_nodup l []

/-- Every input element appears among the dict keys. -/
theorem mem_dedupFirst {α : Type} [DecidableEq α] (l : List α) (a : α) (h : a ∈ l) :
    a ∈ dedupFirst l :=
  mem_dedupFirstAux l [] a h (List.not_mem_nil a)

/-- Filtering a list by each key of a duplicate-free list covering all
its elements partitions its length. -/
theorem length_filter_key_sum {α β : Type} [BEq β] [LawfulBEq β] (f : α → β) :
    ∀ (K : List β), K.Nodup → ∀ (l : List α), (∀ x ∈ l, f x ∈ K) →
      (K.map (fun k => (l.filter (fun x => f x == k)).length)).sum = l.length := by
  intro K
  induction K with
  | nil =>
    intro _ l hcov
    have hl : l = [] :=
      List.eq_nil_iff_forall_not_mem.mpr (fun a ha => (List.not_mem_nil (f a)) (hcov a ha))
    rw [hl]
    rfl
  | cons k K' ih =>
    intro hnd l hcov
    rcases List.nodup_cons.mp hnd with ⟨hkK, hnd'⟩
    have hmap : ∀ k' ∈ K', (l.filter (fun x => f x == k')).length =
        ((l.filter (fun x => !(f x == k))).filter (fun x => f x == k')).length := by
      intro k' hk'
      have hkk' : k ≠ k' := fun he => hkK (he ▸ hk')
      have hfe : (l.filter (fun x => !(f x == k))).filter (fun x => f x == k') =
          l.filter (fun x => f x == k') := by
        rw [List.filter_filter]
        apply List.filter_congr
        intro x hx
        by_cases hfx : f x = k'
        · have h1 : (f x == k') = true := beq_iff_eq.mpr hfx
          have h2 : (f x == k) = false := beq_eq_false_iff_ne.mpr (hfx ▸ (Ne.symm hkk'))
          rw [h1, h2]
          rfl
        · have h1 : (f x == k') = false := beq_eq_false_iff_ne.mpr hfx
          rw [h1]
          simp
      rw [hfe]
    have hcov' : ∀ x ∈ l.filter (fun x => !(f x == k)), f x ∈ K' := by
      intro x hx
      have hxl : x ∈ l := List.mem_of_mem_filter hx
      have hfk := List.of_mem_filter hx
      have hfk2 : f x ≠ k := by simpa using hfk
      rcases List.mem_cons.mp (hcov x hxl) with h | h
      · exact absurd h hfk2
      · exact h
    have hrec := ih hnd' (l.filter (fun x => !(f x == k))) hcov'
    have hsplit : (l.filter (fun x => f x == k)).length +
        (l.filter (fun x => !(f x == k))).length = l.length :=
      (List.length_eq_length_filter_add (fun x => f x == k)).symm
    calc ((k :: K').map (fun k => (l.filter (fun x => f x == k)).length)).sum
        = (l.filter (fun x => f x == k)).length +
          (K'.map (fun k' => (l.filter (fun x => f x == k')).length)).sum := by
          simp [List.map_cons, List.sum_cons]
      _ = (l.filter (fun x => f x == k)).length +
          (K'.map (fun k' =>
            ((l.filter (fun x => !(f x == k))).filter (fun x => f x == k')).length)).sum := by
          rw [List.map_congr_left hmap]
      _ = (l.filter (fun x => f x == k)).length +
          (l.filter (fun x => !(f x == k))).length := by rw [hrec]
      _ = l.length := hsplit

/-- Leg counting distributes over group list concatenation. -/
theorem legsCount_append (a b : List StrategyGroup) :
    legsCount (a ++ b) = legsCount a + legsCount b := by
  simp [legsCount]

/-- Mapping legs to one-leg groups counts one leg per element. -/
theorem legsCount_map_one {α : Type} (f : α → StrategyGroup)
    (hf : ∀ a, (f a).legs.length = 1) (l : List α) : legsCount (l.map f) = l.length := by
  induction l with
  | nil => rfl
  | cons x t ih =>
    simp only [List.map_cons, legsCount, List.sum_cons, List.length_cons] at ih ⊢
    rw [hf x, ih]
    omega

/-- Leg counting over a flattened list of group lists is the sum of
the parts. -/
theorem legsCount_flatten (gs : List (List StrategyGroup)) :
    legsCount gs.flatten = (gs.map legsCount).sum := by
  induction gs with
  | nil => rfl
  | cons g t ih => simp [List.flatten_cons, legsCount_append, ih]

/-- For normalized legs the stock/option split partitions the group. -/
theorem stocks_options_length (grp : List Leg)
    (hnorm : ∀ p ∈ grp, p.asset_type = "stock" ∨ p.asset_type = "option") :
    (stocksOf grp).length + (optionsOf grp).length = grp.length := by
  have hco : optionsOf grp = grp.filter (fun p => !(p.asset_type == "stock")) := by
    unfold optionsOf
    apply List.filter_congr
    intro x hx
    rcases hnorm x hx with h | h <;> simp [h]
  rw [stocksOf, hco]
  exact (List.length_eq_length_filter_add (fun (p : Leg) => p.asset_type == "stock")).symm

/-- Every expiration bucket is count-contained in the option pool. -/
theorem expCells_sub (grp : List Leg) :
    ∀ c ∈ expCells grp, ∀ v, c.count v ≤ (optionsOf grp).count v := by
  intro c hc v
  obtain ⟨e, he, rfl⟩ := List.mem_map.mp hc
  exact (List.filter_sublist _).count_le v

/-- Distinct expiration buckets hold value-disjoint legs. -/
theorem expCells_pairwise (grp : List Leg) :
    List.Pairwise (fun c₁ c₂ => ∀ v ∈ c₂, v ∉ c₁) (expCells grp) := by
  unfold expCells
  rw [List.pairwise_map]
  have hnd : (dedupFirst ((optionsOf grp).map (fun o => o.expiration))).Nodup :=
    dedupFirst_nodup _
  refine List.Pairwise.imp ?_ hnd
  intro e₁ e₂ hne v hv2 hv1
  have h1 := List.of_mem_filter hv1
  have h2 := List.of_mem_filter hv2
  have e1 : v.expiration = e₁ := by simpa using h1
  have e2 : v.expiration = e₂ := by simpa using h2
  exact hne (e1 ▸ e2)

/-- Strategy detection for one (underlying, account) group conserves
the number of legs when every leg is a stock or an option. -/
theorem processGroup_conservation (u : String) (grp : List Leg)
    (hnorm : ∀ p ∈ grp, p.asset_type = "stock" ∨ p.asset_type = "option") :
    legsCount (processGroup u grp) = grp.length := by
  obtain ⟨hsum, _⟩ := foldBuckets_spec u (expCells grp) ⟨stocksOf grp, optionsOf grp, []⟩
    (expCells_sub grp) (expCells_pairwise grp)
  have hs : legsCount (detectorFold u grp).detected +
      (detectorFold u grp).remaining_stocks.length +
      (detectorFold u grp).remaining_options.length =
      (stocksOf grp).length + (optionsOf grp).length := by
    unfold detectorFold
    rw [hsum]
    show legsCount [] + (stocksOf grp).length + (optionsOf grp).length =
      (stocksOf grp).length + (optionsOf grp).length
    simp [legsCount]
  rw [processGroup, legsCount_append, legsCount_append]
  have hone1 : ∀ a, (leftoverStockGroup u a).legs.length = 1 := by
    intro a
    unfold leftoverStockGroup
    split <;> rfl
  have hone2 : ∀ a, (leftoverOptionGroup u a).legs.length = 1 := by
    intro a
    unfold leftoverOptionGroup
    split <;> rfl
  rw [legsCount_map_one (leftoverStockGroup u) hone1,
    legsCount_map_one (leftoverOptionGroup u) hone2]
  have htot := stocks_options_length grp hnorm
  omega

/-- Leg-count conservation of the whole strategy detector over
normalized legs. -/
theorem detector_conservation (positions : List Leg)
    (hnorm : ∀ p ∈ positions, p.asset_type = "stock" ∨ p.asset_type = "option") :
    legsCount (group_positions_by_strategy positions) = positions.length := by
  rw [group_positions_by_strategy, legsCount_flatten, List.map_map]
  have hcong : (dedupFirst (positions.map (fun p => (p.underlying, p.account_hash)))).map
      (legsCount ∘ fun k =>
        processGroup k.1 (positions.filter (fun p => (p.underlying, p.account_hash) == k)))
    = (dedupFirst (positions.map (fun p => (p.underlying, p.account_hash)))).map
      (fun k => (positions.filter (fun p => (p.underlying, p.account_hash) == k)).length) := by
    apply List.map_congr_left
    intro k hk
    exact processGroup_conservation k.1 _ (fun p hp => hnorm p (List.mem_of_mem_filter hp))
  rw [hcong]
  exact length_filter_key_sum (fun (p : Leg) => (p.underlying, p.account_hash)) _
    (dedupFirst_nodup _) _
    (fun x hx => mem_dedupFirst _ _ (List.mem_map_of_mem _ hx))

/-- C1: for every input list of normalized legs (each leg a stock or
an option), the sum of leg counts across all groups returned by
group_positions_by_strategy equals the number of input legs - no leg
is duplicated or dropped. -/
theorem C1_detector_conservation (positions : List Leg)
    (hnorm : ∀ p ∈ positions, p.asset_type = "stock" ∨ p.asset_type = "option") :
    legsCount (group_positions_by_strategy positions) = positions.length :=
  detector_conservation positions hnorm

/-- Witness for C1: a covered-call pair of normalized legs is grouped
with both legs accounted for. -/
theorem C1_witness : legsCount (group_positions_by_strategy [demoStock, demoCall]) = 2 :=
  C1_detector_conservation [demoStock, demoCall] (by decide)

/-- C6 counterexample: a leg of an unexpected asset type is silently
dropped by the detector (output has no groups), the spec-side checked
variant reports the conservation violation as an error, but the source
function returns the groups to the caller regardless - no error
reaches the caller of the sync. -/
theorem C6_counterexample :
    group_positions_by_strategy [demoBad] = []
    ∧ group_positions_checked [demoBad] ≠
      Except.ok (group_positions_by_strategy [demoBad]) := by
  refine ⟨by decide, ?_⟩
  have h2 : group_positions_checked [demoBad] = Except.error "position count mismatch" := rfl
  rw [h2]
  intro h
  cases h

/-- C6 amended: for normalized legs the integrity check never fires
and the caller receives exactly the detected groups; the mismatch
branch in the source only logs, so agreement with the spec's
error-surfacing behaviour holds precisely on inputs where the
violation cannot occur. -/
theorem C6_error_refinement (positions : List Leg)
    (hnorm : ∀ p ∈ positions, p.asset_type = "stock" ∨ p.asset_type = "option") :
    group_positions_checked positions =
      Except.ok (group_positions_by_strategy positions) := by
  have hc := detector_conservation positions hnorm
  simp [group_positions_checked, hc]

/-- Witness for C6: the checked variant accepts the covered-call
input. -/
theorem C6_witness :
    group_positions_checked [demoStock, demoCall] =
      Except.ok (group_positions_by_strategy [demoStock, demoCall]) :=
  C6_error_refinement [demoStock, demoCall] (by decide)

/-- A first match that satisfies the predicate and is the only
satisfier is what find? returns. -/
theorem find?_eq_some_of_unique {α : Type} (pr : α → Bool) (l : List α) (a : α)
    (ha : a ∈ l) (hpa : pr a = true) (huniq : ∀ b ∈ l, pr b = true → b = a) :
    l.find? pr = some a := by
  induction l with
  | nil => cases ha
  | cons x t ih =>
    by_cases hx : pr x = true
    · have hxa : x = a := huniq x (List.mem_cons_self x t) hx
      rw [List.find?_cons_of_pos _ hx, hxa]
    · rw [List.find?_cons_of_neg _ hx]
      have hat : a ∈ t := by
        rcases List.mem_cons.mp ha with h | h
        · exact absurd (h ▸ hpa) hx
        · exact h
      exact ih hat (fun b hb hpb => huniq b (List.mem_cons_of_mem _ hb) hpb)

/-- A match found in the first part of an append is found in the
whole. -/
theorem find?_append_some {α : Type} (pr : α → Bool) (l₁ l₂ : List α) (a : α)
    (h : l₁.find? pr = some a) : (l₁ ++ l₂).find? pr = some a := by
  induction l₁ with
  | nil => cases h
  | cons x t ih =>
    by_cases hx : pr x = true
    · rw [List.find?_cons_of_pos _ hx] at h
      rw [List.cons_append, List.find?_cons_of_pos _ hx]
      exact h
    · rw [List.find?_cons_of_neg _ hx] at h
      rw [List.cons_append, List.find?_cons_of_neg _ hx]
      exact ih h

/-- Filtering away only elements that fail the search predicate does
not change the search result. -/
theorem find?_filter_of_pred {α : Type} (pr q : α → Bool) (l : List α)
    (himp : ∀ a, pr a = true → q a = true) :
    (l.filter q).find? pr = l.find? pr := by
  induction l with
  | nil => rfl
  | cons a t ih =>
    rw [List.filter_cons]
    by_cases hq : q a = true
    · rw [if_pos hq]
      by_cases hp : pr a = true
      · rw [List.find?_cons_of_pos _ hp, List.find?_cons_of_pos _ hp]
      · rw [List.find?_cons_of_neg _ hp, List.find?_cons_of_neg _ hp]
        exact ih
    · rw [if_neg hq]
      have hp : ¬ pr a = true := fun hpa => hq (himp a hpa)
      rw [List.find?_cons_of_neg _ hp]
      exact ih

/-- Updating rows of other ids preserves an id-keyed search result. -/
theorem find?_id_map_update (db : List DBPosition) (p : DBPosition) (i j : Nat)
    (f : DBPosition → DBPosition) (hf : ∀ q, (f q).id = q.id) (hij : i ≠ j)
    (hfind : db.find? (fun q => q.id == i) = some p) :
    (db.map (fun q => if q.id == j then f q else q)).find? (fun q => q.id == i) = some p := by
  induction db with
  | nil => cases hfind
  | cons q t ih =>
    by_cases hq : (q.id == i) = true
    · rw [List.find?_cons_of_pos (p := fun (r : DBPosition) => r.id == i) _ hq] at hfind
      have hqi : q.id = i := eq_of_beq hq
      have hqj : (q.id == j) = false := beq_eq_false_iff_ne.mpr (hqi ▸ hij)
      rw [List.map_cons]
      have hhead : (if q.id == j then f q else q) = q := by rw [hqj]; rfl
      rw [hhead, List.find?_cons_of_pos (p := fun (r : DBPosition) => r.id == i) _ hq]
      exact hfind
    · rw [List.find?_cons_of_neg (p := fun (r : DBPosition) => r.id == i) _ hq] at hfind
      rw [List.map_cons]
      have hhead : ((if q.id == j then f q else q).id == i) = false := by
        by_cases hqj : (q.id == j) = true
        · rw [hqj]
          simp only [if_true]
          rw [hf q]
          exact Bool.eq_false_iff.mpr (fun h => hq h)
        · have : (q.id == j) = false := Bool.eq_false_iff.mpr hqj
          rw [this]
          simp only [Bool.false_eq_true, if_false]
          exact Bool.eq_false_iff.mpr (fun h => hq h)
      rw [List.find?_cons_of_neg _ (by rw [hhead]; exact Bool.false_ne_true)]
      exact ih hfind

/-- Deleting a different key preserves a key lookup. -/
theorem alookup_adel_ne (m : List ((String × String × String) × Nat))
    (k k' : String × String × String) (hne : k' ≠ k) :
    alookup (adel m k) k' = alookup m k' := by
  unfold alookup adel
  rw [find?_filter_of_pred]
  intro e he
  have he' : e.1 = k' := eq_of_beq he
  have : (e.1 == k) = false := beq_eq_false_iff_ne.mpr (he' ▸ hne)
  rw [this]
  rfl

/-- Building the key dict over positions with pairwise distinct keys
never overwrites: it is the list of (key, id) pairs. -/
theorem foldl_upsert_eq :
    ∀ (ps : List DBPosition) (m : List ((String × String × String) × Nat)),
      (ps.map keyOfPos).Nodup →
      (∀ q ∈ ps, ∀ e ∈ m, e.1 ≠ keyOfPos q) →
      ps.foldl (fun m p => upsert m (keyOfPos p) p.id) m =
        m ++ ps.map (fun q => (keyOfPos q, q.id)) := by
  intro ps
  induction ps with
  | nil =>
    intro m _ _
    simp
  | cons p t ih =>
    intro m hnd hdisj
    rcases List.nodup_cons.mp hnd with ⟨hpK, hnd'⟩
    rw [List.foldl_cons]
    have hany : (m.any (fun e => e.1 == keyOfPos p)) = false := by
      rw [List.any_eq_false]
      intro e he
      have := hdisj p (List.mem_cons_self p t) e he
      simp [this]
    have hup : upsert m (keyOfPos p) p.id = m ++ [(keyOfPos p, p.id)] := by
      unfold upsert
      rw [hany]
      rfl
    rw [hup, ih (m ++ [(keyOfPos p, p.id)]) hnd' ?_]
    · simp
    · intro q hq e he
      rcases List.mem_append.mp he with he | he
      · exact hdisj q (List.mem_cons_of_mem p hq) e he
      · rcases List.mem_cons.mp he with rfl | he
        · intro hk
          apply hpK
          have hk' : keyOfPos p = keyOfPos q := hk
          rw [hk']
          exact List.mem_map_of_mem keyOfPos hq
        · cases he

/-- With pairwise distinct keys the dict is the association list of
(key, id) pairs in order. -/
theorem buildKeyMap_eq (ps : List DBPosition) (h : (ps.map keyOfPos).Nodup) :
    buildKeyMap ps = ps.map (fun q => (keyOfPos q, q.id)) := by
  unfold buildKeyMap
  rw [foldl_upsert_eq ps [] h (fun q _ e he => by cases he)]
  rfl

/-- Looking a position's own key up in the association list of a
distinct-keyed position list yields its id. -/
theorem alookup_map_self (ps : List DBPosition) (p : DBPosition) (hp : p ∈ ps)
    (hnd : (ps.map keyOfPos).Nodup) :
    alookup (ps.map (fun q => (keyOfPos q, q.id))) (keyOfPos p) = some p.id := by
  unfold alookup
  have hfind : (ps.map (fun q => (keyOfPos q, q.id))).find?
      (fun e => e.1 == keyOfPos p) = some (keyOfPos p, p.id) := by
    apply find?_eq_some_of_unique
    · exact List.mem_map_of_mem _ hp
    · exact beq_self_eq_true _
    · intro b hb hpb
      obtain ⟨q, hq, rfl⟩ := List.mem_map.mp hb
      have hkq : keyOfPos q = keyOfPos p := eq_of_beq hpb
      have : q = p := List.inj_on_of_nodup_map hnd hq hp hkq
      rw [this]
  rw [hfind]
  rfl

/-- One sync step preserves the C3 invariant for a position whose key
the group does not address. -/
theorem C3inv_syncStep (user today now : Nat) (p : DBPosition) (st : SyncState)
    (g : StrategyGroup) (hg : groupKey? g ≠ some (keyOfPos p)) (h : C3inv p st) :
    C3inv p (syncStep user today now st g) := by
  obtain ⟨h1, ⟨e, he, he1, he2⟩, h3⟩ := h
  cases hl : g.legs with
  | nil =>
    have hstep : syncStep user today now st g = st := by
      simp only [syncStep, hl]
    rw [hstep]
    exact ⟨h1, ⟨e, he, he1, he2⟩, h3⟩
  | cons first rest =>
    have hkey : (g.underlying, first.account_hash, g.strategy_type) ≠ keyOfPos p := by
      intro hk
      apply hg
      have hgk : groupKey? g = some (g.underlying, first.account_hash, g.strategy_type) := by
        simp only [groupKey?, hl]
      rw [hgk, hk]
    cases hfind : alookup st.keymap (g.underlying, first.account_hash, g.strategy_type) with
    | none =>
      have hstep : syncStep user today now st g =
          { st with
            db := st.db ++ [createPosition user today now st.nextId g first.account_hash first.account_number]
            nextId := st.nextId + 1 } := by
        simp only [syncStep, hl, hfind]
      rw [hstep]
      exact ⟨find?_append_some _ _ _ _ h1, ⟨e, he, he1, he2⟩, h3⟩
    | some pid =>
      have hpid : pid ≠ p.id := by
        intro hpe
        unfold alookup at hfind
        cases hff : st.keymap.find? (fun ee => ee.1 == (g.underlying, first.account_hash, g.strategy_type)) with
        | none => rw [hff] at hfind; cases hfind
        | some e' =>
          rw [hff] at hfind
          have he'2 : e'.2 = pid := by simpa using hfind
          have he'm : e' ∈ st.keymap := List.mem_of_find?_eq_some hff
          have hfp := List.find?_some hff
          have he'key : e'.1 = (g.underlying, first.account_hash, g.strategy_type) := eq_of_beq hfp
          have he'p : e'.1 = keyOfPos p := h3 e' he'm (he'2.trans hpe)
          exact hkey (by rw [← he'key, he'p])
      have hstep : syncStep user today now st g =
          { st with
            db := st.db.map (fun q => if q.id == pid then updateExistingPosition now g.legs q else q)
            keymap := adel st.keymap (g.underlying, first.account_hash, g.strategy_type) } := by
        simp only [syncStep, hl, hfind]
      rw [hstep]
      refine ⟨?_, ⟨e, ?_, he1, he2⟩, ?_⟩
      · exact find?_id_map_update st.db p p.id pid _ (fun q => rfl) (fun hq => hpid hq.symm) h1
      · apply List.mem_filter.mpr
        refine ⟨he, ?_⟩
        have hb : (e.1 == (g.underlying, first.account_hash, g.strategy_type)) = false :=
          beq_eq_false_iff_ne.mpr (by rw [he1]; exact fun hk => hkey hk.symm)
        rw [hb]
        rfl
      · intro e' he' h2
        exact h3 e' (List.mem_filter.mp he').1 h2

/-- The whole group fold preserves the C3 invariant when no group
addresses the position's key. -/
theorem C3inv_fold (user today now : Nat) (p : DBPosition) :
    ∀ (gs : List StrategyGroup) (st : SyncState),
      (∀ g ∈ gs, groupKey? g ≠ some (keyOfPos p)) → C3inv p st →
      C3inv p (gs.foldl (syncStep user today now) st) := by
  intro gs
  induction gs with
  | nil => intro st _ h; exact h
  | cons g t ih =>
    intro st hno h
    rw [List.foldl_cons]
    exact ih _ (fun g' hg' => hno g' (List.mem_cons_of_mem _ hg'))
      (C3inv_syncStep user today now p st g (hno g (List.mem_cons_self _ _)) h)

/-- A sync step never discards a row id. -/
theorem syncStep_keeps_id (user today now : Nat) (st : SyncState) (g : StrategyGroup)
    (q : DBPosition) (hq : q ∈ st.db) :
    ∃ r ∈ (syncStep user today now st g).db, r.id = q.id := by
  cases hl : g.legs with
  | nil =>
    have hstep : syncStep user today now st g = st := by
      simp only [syncStep, hl]
    rw [hstep]
    exact ⟨q, hq, rfl⟩
  | cons first rest =>
    cases hfind : alookup st.keymap (g.underlying, first.account_hash, g.strategy_type) with
    | some pid =>
      have hstep : (syncStep user today now st g).db =
          st.db.map (fun r => if r.id == pid then updateExistingPosition now g.legs r else r) := by
        simp only [syncStep, hl, hfind]
      rw [hstep]
      refine ⟨if q.id == pid then updateExistingPosition now g.legs q else q,
        List.mem_map_of_mem _ hq, ?_⟩
      by_cases hqp : (q.id == pid) = true
      · simp [hqp, updateExistingPosition]
      · simp [hqp]
    | none =>
      have hstep : (syncStep user today now st g).db =
          st.db ++ [createPosition user today now st.nextId g first.account_hash first.account_number] := by
        simp only [syncStep, hl, hfind]
      rw [hstep]
      exact ⟨q, List.mem_append_left _ hq, rfl⟩

/-- The whole group fold never discards a row id. -/
theorem syncFold_keeps_id (user today now : Nat) :
    ∀ (gs : List StrategyGroup) (st : SyncState) (q : DBPosition), q ∈ st.db →
      ∃ r ∈ (gs.foldl (syncStep user today now) st).db, r.id = q.id := by
  intro gs
  induction gs with
  | nil => intro st q hq; exact ⟨q, hq, rfl⟩
  | cons g t ih =>
    intro st q hq
    rw [List.foldl_cons]
    obtain ⟨r, hr, hrid⟩ := syncStep_keeps_id user today now st g q hq
    obtain ⟨r', hr', hrid'⟩ := ih (syncStep user today now st g) r hr
    exact ⟨r', hr', hrid'.trans hrid⟩

/-- The closing pass closes a still-mapped row in place. -/
theorem closeUnconsumed_mem_closed (today : Nat) (st : SyncState) (p : DBPosition)
    (hp : p ∈ st.db) (hany : (st.keymap.any (fun e => e.2 == p.id)) = true) :
    { p with status := "closed", exit_date := some today } ∈ closeUnconsumed today st := by
  unfold closeUnconsumed
  apply List.mem_map.mpr
  refine ⟨p, hp, ?_⟩
  simp [hany]

/-- The closing pass never discards a row id. -/
theorem closeUnconsumed_keeps_id (today : Nat) (st : SyncState) (q : DBPosition)
    (hq : q ∈ st.db) : ∃ r ∈ closeUnconsumed today st, r.id = q.id := by
  unfold closeUnconsumed
  refine ⟨if (st.keymap.any (fun e => e.2 == q.id)) then { q with status := "closed", exit_date := some today } else q,
    List.mem_map_of_mem _ hq, ?_⟩
  by_cases hc : (st.keymap.any (fun e => e.2 == q.id)) = true
  · simp [hc]
  · simp [hc]

/-- C3 counterexample: the claim fails as stated.  Positions p1ex and
p2ex share the key (SPY, acct1, vertical_spread); a sync with no
strategy groups consumes no key at all, yet the returned table still
holds p1ex unchanged - status "active", exit_date none - because the
last-wins dict existing_by_key (position_service.py 280-283) keeps
only the later duplicate, and the closing pass (411-414) iterates over
that dict's values. -/
theorem C3_counterexample :
    keyOfPos p1ex = keyOfPos p2ex ∧
    (sync_schwab_positions 0 7 8 100 [p1ex, p2ex] []).find?
      (fun (r : DBPosition) => r.id == p1ex.id) = some p1ex ∧
    p1ex.status = "active" ∧ p1ex.exit_date = none :=
  ⟨rfl, rfl, rfl, rfl⟩

/-- C3 (amended): if the persisted actual positions have pairwise
distinct keys and pairwise distinct ids, then every persisted position
whose key no strategy group of the current sync addresses is returned
closed, with exit_date set to today and every other column unchanged;
moreover no row of the table is deleted - every persisted id is still
present after the sync. -/
theorem C3_close_unconsumed (user today now nextId : Nat) (existing : List DBPosition)
    (grouped : List StrategyGroup) (p : DBPosition) (hp : p ∈ existing)
    (hkeys : (existing.map keyOfPos).Nodup)
    (hids : (existing.map (fun (r : DBPosition) => r.id)).Nodup)
    (hno : ∀ g ∈ grouped, groupKey? g ≠ some (keyOfPos p)) :
    ({ p with status := "closed", exit_date := some today } ∈
      sync_schwab_positions user today now nextId existing grouped) ∧
    ∀ q ∈ existing, ∃ r ∈ sync_schwab_positions user today now nextId existing grouped,
      r.id = q.id := by
  have hinv0 : C3inv p ⟨existing, buildKeyMap existing, nextId⟩ := by
    refine ⟨?_, ?_, ?_⟩
    · apply find?_eq_some_of_unique (fun (r : DBPosition) => r.id == p.id) existing p hp (by simp)
      intro b hb hpb
      exact List.inj_on_of_nodup_map hids hb hp (eq_of_beq hpb)
    · rw [buildKeyMap_eq existing hkeys]
      exact ⟨(keyOfPos p, p.id), List.mem_map_of_mem _ hp, rfl, rfl⟩
    · rw [buildKeyMap_eq existing hkeys]
      intro e he h2
      obtain ⟨q, hq, rfl⟩ := List.mem_map.mp he
      have hqp : q = p := List.inj_on_of_nodup_map hids hq hp h2
      rw [hqp]
  obtain ⟨h1, ⟨e, he, he1, he2⟩, h3⟩ :=
    C3inv_fold user today now p grouped ⟨existing, buildKeyMap existing, nextId⟩ hno hinv0
  have hpmem : p ∈ (grouped.foldl (syncStep user today now)
      ⟨existing, buildKeyMap existing, nextId⟩).db := List.mem_of_find?_eq_some h1
  have hany : ((grouped.foldl (syncStep user today now)
      ⟨existing, buildKeyMap existing, nextId⟩).keymap.any (fun ee => ee.2 == p.id)) = true := by
    apply List.any_eq_true.mpr
    exact ⟨e, he, by simp [he2]⟩
  constructor
  · show _ ∈ closeUnconsumed today (grouped.foldl (syncStep user today now)
      ⟨existing, buildKeyMap existing, nextId⟩)
    exact closeUnconsumed_mem_closed today _ p hpmem hany
  · intro q hq
    have hq' : q ∈ (⟨existing, buildKeyMap existing, nextId⟩ : SyncState).db := hq
    obtain ⟨r, hr, hrid⟩ := syncFold_keeps_id user today now grouped
      ⟨existing, buildKeyMap existing, nextId⟩ q hq'
    obtain ⟨r', hr', hrid'⟩ := closeUnconsumed_keeps_id today
      (grouped.foldl (syncStep user today now) ⟨existing, buildKeyMap existing, nextId⟩) r hr
    exact ⟨r', hr', hrid'.trans hrid⟩

/-- C3 witness: the single position p1ex, with no group addressing its
key, comes back closed with exit_date 7 and its id survives. -/
theorem C3_witness :
    ({ p1ex with status := "closed", exit_date := some 7 } ∈
      sync_schwab_positions 0 7 8 100 [p1ex] []) ∧
    ∀ q ∈ [p1ex], ∃ r ∈ sync_schwab_positions 0 7 8 100 [p1ex] [], r.id = q.id :=
  C3_close_unconsumed 0 7 8 100 [p1ex] [] p1ex (by simp) (by simp) (by simp)
    (fun g hg => by cases hg)

/-- Every branch of one reconciliation step: a locked signature-match
consumed, an unlocked key-match consumed, or a creation that consumes
nothing. -/
theorem reconcileStep_cases (st : SpecState) (g : SpecGroup) :
    (∃ q, q ∈ st.remaining ∧ q.is_manual_strategy = true ∧
       (reconcileStep st g).done = st.done ++ [updateLockedSpec g q] ∧
       (reconcileStep st g).remaining = st.remaining.erase q) ∨
    (∃ q, q ∈ st.remaining ∧ q.is_manual_strategy = false ∧
       (reconcileStep st g).done = st.done ++ [updateUnlockedSpec g q] ∧
       (reconcileStep st g).remaining = st.remaining.erase q) ∨
    ((reconcileStep st g).done = st.done ++ [createSpecPosition g st.nextId] ∧
     (reconcileStep st g).remaining = st.remaining) := by
  cases hsig : st.remaining.find? (fun q =>
      q.is_manual_strategy && signatures_match q.schwab_position_signature g.signature) with
  | some q =>
    have hqm : q ∈ st.remaining := List.mem_of_find?_eq_some hsig
    have hq := List.find?_some hsig
    have hql : q.is_manual_strategy = true ∧
        signatures_match q.schwab_position_signature g.signature = true := by simpa using hq
    cases hkf : st.remaining.find? (fun p => specKeyMatch g p) with
    | some p' =>
      by_cases hpl : p'.is_manual_strategy = true
      · left
        refine ⟨q, hqm, hql.1, ?_, ?_⟩ <;>
          simp only [reconcileStep, hsig, hkf, hpl, if_true]
      · right; left
        have hpl' : p'.is_manual_strategy = false := Bool.eq_false_iff.mpr hpl
        refine ⟨p', List.mem_of_find?_eq_some hkf, hpl', ?_, ?_⟩ <;>
          simp only [reconcileStep, hsig, hkf, hpl', Bool.false_eq_true, if_false]
    | none =>
      left
      refine ⟨q, hqm, hql.1, ?_, ?_⟩ <;>
        simp only [reconcileStep, hsig, hkf]
  | none =>
    cases hkf : st.remaining.find? (fun p => specKeyMatch g p) with
    | some p' =>
      by_cases hpl : p'.is_manual_strategy = true
      · right; right
        constructor <;> simp only [reconcileStep, hsig, hkf, hpl, if_true]
      · right; left
        have hpl' : p'.is_manual_strategy = false := Bool.eq_false_iff.mpr hpl
        refine ⟨p', List.mem_of_find?_eq_some hkf, hpl', ?_, ?_⟩ <;>
          simp only [reconcileStep, hsig, hkf, hpl', Bool.false_eq_true, if_false]
    | none =>
      right; right
      constructor <;> simp only [reconcileStep, hsig, hkf]

/-- One reconciliation step keeps every locked position alive with its
strategy_type and lock flag: it is either still unconsumed and
untouched, or already finalized with id, strategy_type and flag
preserved. -/
theorem reconcileStep_locked (st : SpecState) (g : SpecGroup) (p : SpecPosition)
    (hlock : p.is_manual_strategy = true)
    (h : p ∈ st.remaining ∨ ∃ r ∈ st.done,
      r.id = p.id ∧ r.strategy_type = p.strategy_type ∧ r.is_manual_strategy = true) :
    p ∈ (reconcileStep st g).remaining ∨ ∃ r ∈ (reconcileStep st g).done,
      r.id = p.id ∧ r.strategy_type = p.strategy_type ∧ r.is_manual_strategy = true := by
  rcases reconcileStep_cases st g with ⟨q, hqm, hql, hd, hr⟩ | ⟨q, hqm, hql, hd, hr⟩ | ⟨hd, hr⟩
  · rcases h with hrem | ⟨r, hrd, hprops⟩
    · by_cases hpq : p = q
      · right
        refine ⟨updateLockedSpec g q, ?_, ?_⟩
        · rw [hd]
          exact List.mem_append_right _ (List.mem_singleton.mpr rfl)
        · subst hpq
          exact ⟨rfl, rfl, hlock⟩
      · left
        rw [hr]
        exact (List.mem_erase_of_ne hpq).mpr hrem
    · right
      exact ⟨r, by rw [hd]; exact List.mem_append_left _ hrd, hprops⟩
  · rcases h with hrem | ⟨r, hrd, hprops⟩
    · left
      have hpq : p ≠ q := by
        intro hh
        rw [hh, hql] at hlock
        cases hlock
      rw [hr]
      exact (List.mem_erase_of_ne hpq).mpr hrem
    · right
      exact ⟨r, by rw [hd]; exact List.mem_append_left _ hrd, hprops⟩
  · rcases h with hrem | ⟨r, hrd, hprops⟩
    · left
      rw [hr]
      exact hrem
    · right
      exact ⟨r, by rw [hd]; exact List.mem_append_left _ hrd, hprops⟩

/-- The whole reconciliation fold keeps every locked position alive
with strategy_type and lock flag preserved. -/
theorem reconcileFold_locked :
    ∀ (gs : List SpecGroup) (st : SpecState) (p : SpecPosition),
      p.is_manual_strategy = true →
      (p ∈ st.remaining ∨ ∃ r ∈ st.done,
        r.id = p.id ∧ r.strategy_type = p.strategy_type ∧ r.is_manual_strategy = true) →
      (p ∈ (gs.foldl reconcileStep st).remaining ∨
       ∃ r ∈ (gs.foldl reconcileStep st).done,
         r.id = p.id ∧ r.strategy_type = p.strategy_type ∧ r.is_manual_strategy = true) := by
  intro gs
  induction gs with
  | nil => intro st p _ h; exact h
  | cons g t ih =>
    intro st p hlock h
    rw [List.foldl_cons]
    exact ih (reconcileStep st g) p hlock (reconcileStep_locked st g p hlock h)

/-- Reconciling one signed group against positions whose key-matchers
are all locked, when the locked signature search finds p, yields
exactly: p updated with type and lock preserved, everything else
closed. -/
theorem reconcile_single_locked (existing : List SpecPosition) (g : SpecGroup)
    (today nextId : Nat) (p : SpecPosition)
    (hfs : existing.find? (fun q =>
      q.is_manual_strategy && signatures_match q.schwab_position_signature g.signature) = some p)
    (hkm : ∀ q ∈ existing, specKeyMatch g q = true → q.is_manual_strategy = true) :
    reconcile_spec existing [g] today nextId =
      updateLockedSpec g p ::
        (existing.erase p).map (fun r => { r with status := "closed", exit_date := some today }) := by
  have hres : reconcile_spec existing [g] today nextId =
      (reconcileStep ⟨[], existing, nextId⟩ g).done ++
        (reconcileStep ⟨[], existing, nextId⟩ g).remaining.map
          (fun r => { r with status := "closed", exit_date := some today }) := rfl
  rw [hres]
  cases hkf : existing.find? (fun q => specKeyMatch g q) with
  | none =>
    have hstep : reconcileStep ⟨[], existing, nextId⟩ g =
        ⟨[updateLockedSpec g p], existing.erase p, nextId⟩ := by
      simp only [reconcileStep, hfs, hkf, List.nil_append]
    rw [hstep]
    rfl
  | some p' =>
    have hpl : p'.is_manual_strategy = true :=
      hkm p' (List.mem_of_find?_eq_some hkf) (List.find?_some hkf)
    have hstep : reconcileStep ⟨[], existing, nextId⟩ g =
        ⟨[updateLockedSpec g p], existing.erase p, nextId⟩ := by
      simp only [reconcileStep, hfs, hkf, hpl, if_true, List.nil_append]
    rw [hstep]
    rfl

/-- C2 (over the reconciler modelled from the spec; the lock-aware
path is absent from src): every persisted locked position survives
reconciliation with its id, strategy_type and lock flag intact -
whether updated by signature match, left alone, or closed; when a
single group's signature matches the stored signature of p, the only
locked signature matcher, and every key matcher is locked, the result
contains exactly updateLockedSpec g p, which updates the aggregates
and legs while preserving strategy_type and the lock flag - with no
constraint tying g.strategy_type to p.strategy_type. -/
theorem C2_lock_preservation (existing : List SpecPosition) (groups : List SpecGroup)
    (today nextId : Nat) (p : SpecPosition) (hp : p ∈ existing)
    (hlock : p.is_manual_strategy = true) :
    (∃ r ∈ reconcile_spec existing groups today nextId,
       r.id = p.id ∧ r.strategy_type = p.strategy_type ∧ r.is_manual_strategy = true) ∧
    (∀ g : SpecGroup,
       signatures_match p.schwab_position_signature g.signature = true →
       (∀ q ∈ existing, specKeyMatch g q = true → q.is_manual_strategy = true) →
       (∀ q ∈ existing, q.is_manual_strategy = true →
          signatures_match q.schwab_position_signature g.signature = true → q = p) →
       updateLockedSpec g p ∈ reconcile_spec existing [g] today nextId) ∧
    (∀ g : SpecGroup,
       (updateLockedSpec g p).strategy_type = p.strategy_type ∧
       (updateLockedSpec g p).is_manual_strategy = p.is_manual_strategy ∧
       (updateLockedSpec g p).quantity = total_quantity g.legs ∧
       (updateLockedSpec g p).cost_basis = total_cost g.legs ∧
       (updateLockedSpec g p).current_value = total_value g.legs ∧
       (updateLockedSpec g p).unrealized_pnl = total_pnl g.legs ∧
       (updateLockedSpec g p).status = "active" ∧
       (updateLockedSpec g p).legs = g.legs) := by
  refine ⟨?_, ?_, fun g => ⟨rfl, rfl, rfl, rfl, rfl, rfl, rfl, rfl⟩⟩
  · have hres : reconcile_spec existing groups today nextId =
        (groups.foldl reconcileStep ⟨[], existing, nextId⟩).done ++
          (groups.foldl reconcileStep ⟨[], existing, nextId⟩).remaining.map
            (fun r => { r with status := "closed", exit_date := some today }) := rfl
    rcases reconcileFold_locked groups ⟨[], existing, nextId⟩ p hlock (Or.inl hp) with
      hrem | ⟨r, hrd, h1, h2, h3⟩
    · refine ⟨{ p with status := "closed", exit_date := some today }, ?_, rfl, rfl, hlock⟩
      rw [hres]
      exact List.mem_append_right _ (List.mem_map_of_mem _ hrem)
    · refine ⟨r, ?_, h1, h2, h3⟩
      rw [hres]
      exact List.mem_append_left _ hrd
  · intro g hsig hkm huniq
    have hfs : existing.find? (fun q =>
        q.is_manual_strategy && signatures_match q.schwab_position_signature g.signature) = some p := by
      apply find?_eq_some_of_unique _ existing p hp (by rw [hlock, hsig]; rfl)
      intro b hb hpb
      have hh : b.is_manual_strategy = true ∧
          signatures_match b.schwab_position_signature g.signature = true := by simpa using hpb
      exact huniq b hb hh.1 hh.2
    rw [reconcile_single_locked existing g today nextId p hfs hkm]
    exact List.mem_cons_self _ _

/-- C2 witness: the locked unallocated position pLock and the group
gSpec that the detector labels single_option but whose signature
matches: the lock and the stored strategy_type survive, and the
signature-matched update lands in the result. -/
theorem C2_witness :
    gSpec.strategy_type ≠ pLock.strategy_type ∧
    (∃ r ∈ reconcile_spec [pLock] [gSpec] 7 100,
       r.id = pLock.id ∧ r.strategy_type = pLock.strategy_type ∧ r.is_manual_strategy = true) ∧
    updateLockedSpec gSpec pLock ∈ reconcile_spec [pLock] [gSpec] 7 100 ∧
    (updateLockedSpec gSpec pLock).strategy_type = pLock.strategy_type ∧
    (updateLockedSpec gSpec pLock).is_manual_strategy = true ∧
    (updateLockedSpec gSpec pLock).legs = gSpec.legs := by
  have h := C2_lock_preservation [pLock] [gSpec] 7 100 pLock (by simp) rfl
  refine ⟨by decide, h.1, h.2.1 gSpec (by decide) ?_ ?_, (h.2.2 gSpec).1, rfl,
    (h.2.2 gSpec).2.2.2.2.2.2.2⟩
  · intro q hq _
    simp only [List.mem_singleton] at hq
    rw [hq]
    rfl
  · intro q hq _ _
    simpa using hq
